import Mathlib

/-!
Verification of the indexed max-heap priority queue and the discrete-time
scheduler driver of `priorityqueue.py`.

The Python classes and functions are shallowly embedded:

* `Task` mirrors the `Task` dataclass (`task_id`, `priority`, `arrival_time`,
  `deadline`, `payload`).
* `PQ` mirrors the private state of `MaxHeapPriorityQueue`: the list `heap`
  embeds `self._heap`, and the association list `pos` embeds the dictionary
  `self._pos` (`dictSet` is dictionary assignment, `dictDel` is `del`,
  `List.lookup` is dictionary lookup).
* Each public method raises by returning `Except.error` with the error kind
  of the spec taxonomy; since the Python methods validate before mutating,
  an error return corresponds to the object being left unchanged.
* `simulate_scheduler` embeds the driver; the Python `by_time` buckets keyed
  by arrival time are reproduced by `List.filter` (a bucket for time `t`
  holds exactly the input tasks with `arrival_time == t`, in input order).
-/

namespace Sched

structure Task where
  task_id : String
  priority : Int
  arrival_time : Int := 0
  deadline : Option Int := none
  payload : String := ""
deriving DecidableEq, Repr

instance : Inhabited Task := ⟨⟨"", 0, 0, none, ""⟩⟩

/-- `MaxHeapPriorityQueue._higher_priority`: priority descending, then
arrival time ascending, then task id ascending. -/
def higher_priority (a b : Task) : Bool :=
  if a.priority ≠ b.priority then decide (a.priority > b.priority)
  else if a.arrival_time ≠ b.arrival_time then decide (a.arrival_time < b.arrival_time)
  else decide (a.task_id < b.task_id)

/-- Propositional form of the comparator. -/
def HP (a b : Task) : Prop := higher_priority a b = true

instance (a b : Task) : Decidable (HP a b) := by
  unfold HP; infer_instance

/-- Dictionary assignment `d[k] = v`: replace the binding of `k` if present,
otherwise append a fresh binding. -/
def dictSet (p : List (String × Nat)) (k : String) (v : Nat) : List (String × Nat) :=
  match p with
  | [] => [(k, v)]
  | (k', v') :: rest => if k' = k then (k, v) :: rest else (k', v') :: dictSet rest k v

/-- Dictionary deletion `del d[k]`: drop the binding of `k`. -/
def dictDel (p : List (String × Nat)) (k : String) : List (String × Nat) :=
  match p with
  | [] => []
  | (k', v') :: rest => if k' = k then rest else (k', v') :: dictDel rest k

/-- The private state of `MaxHeapPriorityQueue`: `heap` is `self._heap`,
`pos` is `self._pos`. -/
structure PQ where
  heap : List Task
  pos : List (String × Nat)
deriving DecidableEq, Repr

/-- The empty queue built by `__init__`. -/
def emptyPQ : PQ := ⟨[], []⟩

/-- Read of `self._heap[i]` (total, with a junk default out of bounds;
the embedded code only reads in bounds). -/
def nth (l : List Task) (i : Nat) : Task := l.getD i default

/-- The list part of `_swap`: `heap[i], heap[j] = heap[j], heap[i]`. -/
def swapHeap (l : List Task) (i j : Nat) : List Task :=
  (l.set i (nth l j)).set j (nth l i)

/-- `MaxHeapPriorityQueue._swap`: swap two slots and update both index
entries. -/
def swapState (s : PQ) (i j : Nat) : PQ :=
  let h' := swapHeap s.heap i j
  ⟨h', dictSet (dictSet s.pos (nth h' i).task_id i) (nth h' j).task_id j⟩

/-- One pass of the `while idx > 0` loop of `MaxHeapPriorityQueue._sift_up`,
with an explicit iteration bound (the loop index strictly decreases, so
`idx` iterations always suffice; see `sift_up_go_congr`). -/
def sift_up_go (s : PQ) (idx : Nat) : Nat → PQ
  | 0 => s
  | fuel + 1 =>
    if 0 < idx then
      if higher_priority (nth s.heap idx) (nth s.heap ((idx - 1) / 2)) then
        sift_up_go (swapState s idx ((idx - 1) / 2)) ((idx - 1) / 2) fuel
      else s
    else s

/-- `MaxHeapPriorityQueue._sift_up`. -/
def sift_up (s : PQ) (idx : Nat) : PQ := sift_up_go s idx idx

/-- One pass of the `while True` loop of `MaxHeapPriorityQueue._sift_down`,
with an explicit iteration bound (the loop index strictly increases towards
`n`, so `n` iterations always suffice; see `sift_down_go_congr`). -/
def sift_down_go (s : PQ) (idx : Nat) : Nat → PQ
  | 0 => s
  | fuel + 1 =>
    let n := s.heap.length
    if 2 * idx + 1 < n then
      let left := 2 * idx + 1
      let right := left + 1
      let best := if right < n ∧ higher_priority (nth s.heap right) (nth s.heap left)
        then right else left
      if higher_priority (nth s.heap best) (nth s.heap idx) then
        sift_down_go (swapState s idx best) best fuel
      else s
    else s

/-- `MaxHeapPriorityQueue._sift_down`. -/
def sift_down (s : PQ) (idx : Nat) : PQ := sift_down_go s idx s.heap.length

/-- Error taxonomy of the spec (§7). -/
inductive Err where
  | DuplicateKey | EmptyQueue | NotFound | InvalidArgument
deriving DecidableEq, Repr

/-- `MaxHeapPriorityQueue.is_empty`. -/
def is_empty (s : PQ) : Bool := s.heap.length = 0

/-- `MaxHeapPriorityQueue.insert`. -/
def insert (s : PQ) (t : Task) : Except Err PQ :=
  if (s.pos.lookup t.task_id).isSome then .error .DuplicateKey
  else
    let idx := s.heap.length
    .ok (sift_up ⟨s.heap ++ [t], dictSet s.pos t.task_id idx⟩ idx)

/-- `MaxHeapPriorityQueue.extract_max`. -/
def extract_max (s : PQ) : Except Err (Task × PQ) :=
  match s.heap with
  | [] => .error .EmptyQueue
  | _ :: _ =>
    let top := nth s.heap 0
    let last := nth s.heap (s.heap.length - 1)
    let heap1 := s.heap.dropLast
    let pos1 := dictDel s.pos top.task_id
    if heap1.length = 0 then .ok (top, ⟨heap1, pos1⟩)
    else .ok (top, sift_down ⟨heap1.set 0 last, dictSet pos1 last.task_id 0⟩ 0)

/-- `MaxHeapPriorityQueue.peek_max`. -/
def peek_max (s : PQ) : Except Err Task :=
  if s.heap.length = 0 then .error .EmptyQueue else .ok (nth s.heap 0)

/-- `MaxHeapPriorityQueue.increase_key`. -/
def increase_key (s : PQ) (task_id : String) (new_priority : Int) : Except Err PQ :=
  match s.pos.lookup task_id with
  | none => .error .NotFound
  | some i =>
    if new_priority < (nth s.heap i).priority then .error .InvalidArgument
    else
      let t := nth s.heap i
      .ok (sift_up ⟨s.heap.set i { t with priority := new_priority }, s.pos⟩ i)

/-- `MaxHeapPriorityQueue.decrease_key`. -/
def decrease_key (s : PQ) (task_id : String) (new_priority : Int) : Except Err PQ :=
  match s.pos.lookup task_id with
  | none => .error .NotFound
  | some i =>
    if new_priority > (nth s.heap i).priority then .error .InvalidArgument
    else
      let t := nth s.heap i
      .ok (sift_down ⟨s.heap.set i { t with priority := new_priority }, s.pos⟩ i)

/-- `MaxHeapPriorityQueue.__len__`. -/
def size (s : PQ) : Nat := s.heap.length

/-- Insert a bucket of tasks in order (the inner `for task in by_time.get(t, [])`
loop of `simulate_scheduler`). -/
def insertAll (s : PQ) : List Task → Except Err PQ
  | [] => .ok s
  | t :: rest => do insertAll (← insert s t) rest

/-- The `for t in range(max_time + 1)` loop of `simulate_scheduler`, over the
list of remaining time steps (a bucket for time `t` is
`ts.filter (arrival_time = t)`, exactly the contents of `by_time.get(t, [])`
in input order). -/
def simLoop (ts : List Task) (s : PQ) : List Nat → Except Err (List (Nat × Task))
  | [] => pure []
  | t :: steps => do
    let s1 ← insertAll s (ts.filter (fun u => u.arrival_time = (t : Int)))
    if is_empty s1 then
      simLoop ts s1 steps
    else do
      let (executed, s2) ← extract_max s1
      let rest ← simLoop ts s2 steps
      pure ((t, executed) :: rest)

/-- `simulate_scheduler`. -/
def simulate_scheduler (ts : List Task) (maxTime : Nat) : Except Err (List (Nat × Task)) :=
  simLoop ts emptyPQ (List.range (maxTime + 1))

/-- `c` is a child slot of `i` in the implicit binary tree
(`children = 2i+1, 2i+2`). -/
def childIdx (i c : Nat) : Prop := c = 2 * i + 1 ∨ c = 2 * i + 2

/-- Heap-index consistency (spec §3): the position map and the heap store
mirror each other exactly, and the dictionary has well-formed (duplicate-free)
keys. -/
structure PosOk (s : PQ) : Prop where
  nodup : (s.pos.map Prod.fst).Nodup
  fwd : ∀ i, i < s.heap.length → s.pos.lookup (nth s.heap i).task_id = some i
  bwd : ∀ id k, s.pos.lookup id = some k →
    k < s.heap.length ∧ (nth s.heap k).task_id = id

/-- Max-heap order (spec §8): no child is strictly higher-priority than its
parent. -/
def HeapOrd (s : PQ) : Prop :=
  ∀ i c, c < s.heap.length → childIdx i c → ¬ HP (nth s.heap c) (nth s.heap i)

/-- The two coupled invariants of the queue. -/
def Inv (s : PQ) : Prop := PosOk s ∧ HeapOrd s

/-- Intermediate state of `_sift_up` at `idx`: every parent-child edge not
pointing at `idx` is ordered, and the children of `idx` do not beat the
parent of `idx`. -/
def UpOk (s : PQ) (idx : Nat) : Prop :=
  (∀ i c, c < s.heap.length → childIdx i c → c ≠ idx →
    ¬ HP (nth s.heap c) (nth s.heap i)) ∧
  (∀ c, c < s.heap.length → childIdx idx c → 0 < idx →
    ¬ HP (nth s.heap c) (nth s.heap ((idx - 1) / 2)))

/-- Intermediate state of `_sift_down` at `idx`: every parent-child edge not
starting at `idx` is ordered, and the children of `idx` do not beat the
parent of `idx`. -/
def DownOk (s : PQ) (idx : Nat) : Prop :=
  (∀ i c, c < s.heap.length → childIdx i c → i ≠ idx →
    ¬ HP (nth s.heap c) (nth s.heap i)) ∧
  (∀ c, c < s.heap.length → childIdx idx c → 0 < idx →
    ¬ HP (nth s.heap c) (nth s.heap ((idx - 1) / 2)))

/-- Depth of a slot in the implicit tree: number of parent steps to slot 0. -/
def depth (i : Nat) : Nat :=
  if i = 0 then 0 else depth ((i - 1) / 2) + 1
termination_by i
decreasing_by
  have : (i - 1) / 2 ≤ i - 1 := Nat.div_le_self _ _
  omega

/-- Queue states reachable from a fresh `MaxHeapPriorityQueue()` by successful
public operations (`peek_max`, `is_empty` and `__len__` do not mutate the
state, so they do not appear). -/
inductive Reachable : PQ → Prop where
  | empty : Reachable emptyPQ
  | insert_step {s s' : PQ} {t : Task} :
      Reachable s → insert s t = .ok s' → Reachable s'
  | extract_step {s : PQ} {p : Task × PQ} :
      Reachable s → extract_max s = .ok p → Reachable p.2
  | increase_step {s s' : PQ} {id : String} {np : Int} :
      Reachable s → increase_key s id np = .ok s' → Reachable s'
  | decrease_step {s s' : PQ} {id : String} {np : Int} :
      Reachable s → decrease_key s id np = .ok s' → Reachable s'

/-- Repeatedly call `extract_max`, collecting the extracted tasks, until the
queue raises `EmptyQueue` (the iteration bound is the heap size: each
successful extraction shrinks the store by one). -/
def extractAll_go (s : PQ) : Nat → List Task
  | 0 => []
  | fuel + 1 =>
    match extract_max s with
    | .error _ => []
    | .ok (t, s') => t :: extractAll_go s' fuel

def extractAll (s : PQ) : List Task := extractAll_go s s.heap.length

/-! ### Inserting a batch and draining the queue, with invariants -/

/-- The tasks of `ts` whose arrival time is strictly below `t` (those the
driver has inserted before starting time step `t`). -/
def arrivedBy (ts : List Task) (t : Nat) : List Task :=
  ts.filter (fun u => u.arrival_time < (t : Int))

def taskA : Task := ⟨"A", 3, 0, some 10, ""⟩

def taskB : Task := ⟨"B", 10, 1, some 3, ""⟩

def taskC : Task := ⟨"C", 5, 1, some 8, ""⟩

def taskD : Task := ⟨"D", 10, 2, some 5, ""⟩

def taskE : Task := ⟨"E", 1, 3, some 12, ""⟩

def demoTasks : List Task := [taskA, taskB, taskC, taskD, taskE]

def demoTimeline : List (Nat × Task) :=
  [(0, taskA), (1, taskB), (2, taskD), (3, taskC), (4, taskE)]

def wx : Task := ⟨"x", 1, 0, none, ""⟩

def wy : Task := ⟨"y", 2, 0, none, ""⟩

def pqW1 : PQ := ⟨[wx], [("x", 0)]⟩

def pqW2 : PQ := ⟨[wy, wx], [("x", 1), ("y", 0)]⟩

def pqW9 : PQ := ⟨[⟨"x", 5, 0, none, ""⟩, wy], [("x", 0), ("y", 1)]⟩

def pqC4a : PQ := ⟨[wy, wx], [("x", 1), ("y", 0)]⟩

def pqC4b : PQ := ⟨[wy, wx], [("y", 0), ("x", 1)]⟩

/-! ## Theorems -/

theorem swapState_heap_length (s : PQ) (i j : Nat) :
    (swapState s i j).heap.length = s.heap.length := by
  simp [swapState, swapHeap]

/-- The iteration bound of `sift_up_go` is irrelevant as soon as it is at
least `idx`: the embedded `while` loop always stops within `idx` passes. -/
theorem sift_up_go_congr (s : PQ) (idx f1 f2 : Nat) (h1 : idx ≤ f1) (h2 : idx ≤ f2) :
    sift_up_go s idx f1 = sift_up_go s idx f2 := by
  induction f1 generalizing s idx f2 with
  | zero =>
    interval_cases idx
    cases f2 <;> simp [sift_up_go]
  | succ f ih =>
    cases f2 with
    | zero =>
      interval_cases idx
      simp [sift_up_go]
    | succ f' =>
      simp only [sift_up_go]
      by_cases hpos : 0 < idx
      · simp only [if_pos hpos]
        split
        · exact ih _ _ _ (by omega) (by omega)
        · rfl
      · simp [hpos]

/-- The iteration bound of `sift_down_go` is irrelevant as soon as it is at
least `heap.length - idx`: the loop index strictly increases and the loop
stops once its left child falls out of bounds. -/
theorem sift_down_go_congr (s : PQ) (idx f1 f2 : Nat)
    (h1 : s.heap.length ≤ f1 + idx) (h2 : s.heap.length ≤ f2 + idx) :
    sift_down_go s idx f1 = sift_down_go s idx f2 := by
  induction f1 generalizing s idx f2 with
  | zero =>
    cases f2 <;> simp only [sift_down_go] <;> rw [if_neg (by omega)]
  | succ f ih =>
    cases f2 with
    | zero =>
      simp only [sift_down_go]
      rw [if_neg (by omega)]
    | succ f' =>
      simp only [sift_down_go]
      by_cases hl : 2 * idx + 1 < s.heap.length
      · simp only [if_pos hl]
        by_cases hb : 2 * idx + 1 + 1 < s.heap.length ∧
            higher_priority (nth s.heap (2 * idx + 1 + 1)) (nth s.heap (2 * idx + 1)) = true
        · simp only [if_pos hb]
          split
          · exact ih _ _ _ (by rw [swapState_heap_length]; omega)
              (by rw [swapState_heap_length]; omega)
          · rfl
        · simp only [if_neg hb]
          split
          · exact ih _ _ _ (by rw [swapState_heap_length]; omega)
              (by rw [swapState_heap_length]; omega)
          · rfl
      · simp [hl]

/-! ### Order-theoretic facts about the comparator -/

theorem HP_iff (a b : Task) : HP a b ↔
    (b.priority < a.priority ∨ (a.priority = b.priority ∧
      (a.arrival_time < b.arrival_time ∨ (a.arrival_time = b.arrival_time ∧
        a.task_id < b.task_id)))) := by
  unfold HP higher_priority
  split_ifs with h1 h2 <;> simp_all <;> omega

theorem HP_irrefl (a : Task) : ¬ HP a a := by
  rw [HP_iff]
  rintro (h | ⟨-, h | ⟨-, h⟩⟩)
  · omega
  · omega
  · exact lt_irrefl _ h

theorem HP_trans {a b c : Task} (h1 : HP a b) (h2 : HP b c) : HP a c := by
  rw [HP_iff] at *
  rcases h1 with h1 | ⟨e1, h1 | ⟨f1, g1⟩⟩ <;>
    rcases h2 with h2 | ⟨e2, h2 | ⟨f2, g2⟩⟩ <;>
      first
        | (left; omega)
        | (right; exact ⟨by omega, by left; omega⟩)
        | (right; exact ⟨by omega, by right; exact ⟨by omega, lt_trans g1 g2⟩⟩)
        | (right; exact ⟨by omega, by right; exact ⟨by omega, g1⟩⟩)
        | (right; exact ⟨by omega, by right; exact ⟨by omega, g2⟩⟩)

theorem HP_asymm {a b : Task} (h : HP a b) : ¬ HP b a := by
  rw [HP_iff] at *
  rcases h with h | ⟨e, h | ⟨f, g⟩⟩ <;>
    rintro (h2 | ⟨e2, h2 | ⟨f2, g2⟩⟩) <;>
      first
        | omega
        | exact absurd g (lt_asymm g2)

theorem HP_total_of_ne_id {a b : Task} (h : a.task_id ≠ b.task_id) :
    HP a b ∨ HP b a := by
  rw [HP_iff, HP_iff]
  rcases lt_trichotomy a.priority b.priority with hp | hp | hp
  · right; left; exact hp
  · rcases lt_trichotomy a.arrival_time b.arrival_time with ha | ha | ha
    · left; right; exact ⟨hp, Or.inl ha⟩
    · rcases lt_trichotomy a.task_id b.task_id with hi | hi | hi
      · left; right; exact ⟨hp, Or.inr ⟨ha, hi⟩⟩
      · exact absurd hi h
      · right; right; exact ⟨hp.symm, Or.inr ⟨ha.symm, hi⟩⟩
    · right; right; exact ⟨hp.symm, Or.inl ha⟩
  · left; left; exact hp

theorem HP_neg_trans {a b c : Task} (h1 : ¬ HP a b) (h2 : ¬ HP b c) : ¬ HP a c := by
  by_cases hab : a.task_id = b.task_id
  · by_cases hbc : b.task_id = c.task_id
    · intro h
      rw [HP_iff] at *
      push_neg at h1 h2
      rcases h with h | ⟨e, h | ⟨f, g⟩⟩
      · omega
      · have a1 := (h1.2 (by omega)).1
        have a2 := (h2.2 (by omega)).1
        omega
      · have a1 := (h1.2 (by omega)).1
        have a2 := (h2.2 (by omega)).1
        have i1 := (h1.2 (by omega)).2 (by omega)
        have i2 := (h2.2 (by omega)).2 (by omega)
        rw [hab, hbc] at g
        exact lt_irrefl _ g
    · rcases HP_total_of_ne_id hbc with h | h
      · exact absurd h h2
      · intro hac
        rw [HP_iff] at *
        push_neg at h1
        rcases h with h | ⟨e, h | ⟨f, g⟩⟩ <;>
          rcases hac with h3 | ⟨e3, h3 | ⟨f3, g3⟩⟩ <;>
            first
              | omega
              | (have a1 := (h1.2 (by omega)).1; omega)
              | (have a1 := (h1.2 (by omega)).1
                 have i1 := (h1.2 (by omega)).2 (by omega)
                 rw [hab] at *
                 first
                   | omega
                   | exact absurd (lt_trans g3 g) (not_lt.mpr i1)
                   | exact absurd g3 (not_lt.mpr (le_of_lt g))
                   | exact absurd g3 (not_lt.mpr i1))
  · rcases HP_total_of_ne_id hab with h | h
    · exact absurd h h1
    · intro hac
      exact h2 (HP_trans h hac)

/-- Raising the priority of `a` cannot make a task that did not beat `a`
beat it. -/
theorem HP_not_beat_raise {a c : Task} {p : Int} (hp : a.priority ≤ p)
    (h : ¬ HP c a) : ¬ HP c { a with priority := p } := by
  rw [HP_iff] at *
  push_neg at h ⊢
  simp only at *
  refine ⟨by omega, ?_⟩
  intro he
  have hpa : p = a.priority := by omega
  obtain ⟨h1, h2⟩ := h.2 (by omega)
  exact ⟨h1, fun hf => h2 hf⟩

/-- Lowering the priority of `a` cannot make it beat a task it did not
beat. -/
theorem HP_not_win_lower {a c : Task} {p : Int} (hp : p ≤ a.priority)
    (h : ¬ HP a c) : ¬ HP { a with priority := p } c := by
  rw [HP_iff] at *
  push_neg at h ⊢
  simp only at *
  refine ⟨by omega, ?_⟩
  intro he
  have hpa : p = a.priority := by omega
  obtain ⟨h1, h2⟩ := h.2 (by omega)
  exact ⟨h1, fun hf => h2 hf⟩

/-! ### Basic facts about slot access, the dictionary, and `_swap` -/

theorem nth_eq_getElem {l : List Task} {i : Nat} (h : i < l.length) :
    nth l i = l[i] := by
  simp [nth, List.getD_eq_getElem?_getD, List.getElem?_eq_getElem h]

theorem nth_mem {l : List Task} {i : Nat} (h : i < l.length) : nth l i ∈ l := by
  rw [nth_eq_getElem h]
  exact List.getElem_mem h

theorem nth_set_self {l : List Task} {i : Nat} {a : Task} (h : i < l.length) :
    nth (l.set i a) i = a := by
  rw [nth_eq_getElem (by simpa using h)]
  simp [List.getElem_set_self]

theorem nth_set_ne {l : List Task} {i j : Nat} {a : Task} (h : i ≠ j) :
    nth (l.set i a) j = nth l j := by
  simp [nth, List.getD_eq_getElem?_getD, List.getElem?_set_ne h]

theorem nth_append_lt {l l' : List Task} {i : Nat} (h : i < l.length) :
    nth (l ++ l') i = nth l i := by
  simp [nth, List.getD_eq_getElem?_getD, List.getElem?_append, h]

theorem nth_concat_length (l : List Task) (a : Task) : nth (l ++ [a]) l.length = a := by
  simp [nth, List.getD_eq_getElem?_getD, List.getElem?_concat_length]

theorem nth_dropLast {l : List Task} {i : Nat} (h : i < l.length - 1) :
    nth l.dropLast i = nth l i := by
  simp [nth, List.getD_eq_getElem?_getD, List.getElem?_dropLast, h,
    List.getElem?_eq_getElem (show i < l.length by omega)]

theorem lookup_pair (k' k1 : String) (v1 : Nat) (rest : List (String × Nat)) :
    List.lookup k' ((k1, v1) :: rest) = if k' = k1 then some v1 else rest.lookup k' := by
  by_cases h : k' = k1
  · subst h
    simp [List.lookup_cons]
  · simp [List.lookup_cons, beq_false_of_ne h, h]

theorem lookup_dictSet (p : List (String × Nat)) (k : String) (v : Nat) (k' : String) :
    (dictSet p k v).lookup k' = if k' = k then some v else p.lookup k' := by
  induction p with
  | nil => by_cases h : k' = k <;> simp [dictSet, lookup_pair, h]
  | cons kv rest ih =>
    obtain ⟨k1, v1⟩ := kv
    by_cases h1 : k1 = k
    · subst h1
      by_cases h : k' = k1 <;> simp [dictSet, lookup_pair, h]
    · by_cases h : k' = k1
      · subst h
        simp [dictSet, h1, lookup_pair, Ne.symm h1]
      · simp [dictSet, h1, lookup_pair, h, ih]

theorem mem_keys_dictSet {p : List (String × Nat)} {k : String} {v : Nat} {x : String} :
    x ∈ (dictSet p k v).map Prod.fst ↔ x = k ∨ x ∈ p.map Prod.fst := by
  induction p with
  | nil => simp [dictSet]
  | cons kv rest ih =>
    obtain ⟨k1, v1⟩ := kv
    by_cases h1 : k1 = k
    · subst h1
      have hd : dictSet ((k1, v1) :: rest) k1 v = (k1, v) :: rest := by simp [dictSet]
      rw [hd]
      simp only [List.map_cons, List.mem_cons]
      tauto
    · simp only [dictSet, if_neg h1, List.map_cons, List.mem_cons, ih]
      tauto

theorem nodupKeys_dictSet {p : List (String × Nat)} {k : String} {v : Nat}
    (h : (p.map Prod.fst).Nodup) : ((dictSet p k v).map Prod.fst).Nodup := by
  induction p with
  | nil => simp [dictSet]
  | cons kv rest ih =>
    obtain ⟨k1, v1⟩ := kv
    simp only [List.map_cons, List.nodup_cons] at h
    by_cases h1 : k1 = k
    · subst h1
      simpa [dictSet] using h
    · simp only [dictSet, if_neg h1, List.map_cons, List.nodup_cons]
      refine ⟨?_, ih h.2⟩
      rw [mem_keys_dictSet]
      rintro (rfl | hx)
      · exact h1 rfl
      · exact h.1 hx

theorem lookup_dictDel_ne {p : List (String × Nat)} {k k' : String} (h : k' ≠ k) :
    (dictDel p k).lookup k' = p.lookup k' := by
  induction p with
  | nil => simp [dictDel]
  | cons kv rest ih =>
    obtain ⟨k1, v1⟩ := kv
    by_cases h1 : k1 = k
    · subst h1
      simp [dictDel, lookup_pair, h]
    · by_cases h2 : k' = k1 <;> simp [dictDel, lookup_pair, h1, h2, ih]

theorem mem_keys_dictDel {p : List (String × Nat)} {k x : String}
    (h : x ∈ (dictDel p k).map Prod.fst) : x ∈ p.map Prod.fst := by
  induction p with
  | nil => simpa [dictDel] using h
  | cons kv rest ih =>
    obtain ⟨k1, v1⟩ := kv
    by_cases h1 : k1 = k
    · subst h1
      have hd : dictDel ((k1, v1) :: rest) k1 = rest := by simp [dictDel]
      rw [hd] at h
      simp only [List.map_cons, List.mem_cons]
      tauto
    · simp only [dictDel, if_neg h1, List.map_cons, List.mem_cons] at h ⊢
      tauto

theorem nodupKeys_dictDel {p : List (String × Nat)} {k : String}
    (h : (p.map Prod.fst).Nodup) : ((dictDel p k).map Prod.fst).Nodup := by
  induction p with
  | nil => simp [dictDel]
  | cons kv rest ih =>
    obtain ⟨k1, v1⟩ := kv
    simp only [List.map_cons, List.nodup_cons] at h
    by_cases h1 : k1 = k
    · subst h1
      simpa [dictDel] using h.2
    · simp only [dictDel, if_neg h1, List.map_cons, List.nodup_cons]
      exact ⟨fun hx => h.1 (mem_keys_dictDel hx), ih h.2⟩

theorem lookup_isSome_iff {p : List (String × Nat)} {k : String} :
    (p.lookup k).isSome = true ↔ k ∈ p.map Prod.fst := by
  induction p with
  | nil => simp
  | cons kv rest ih =>
    obtain ⟨k1, v1⟩ := kv
    by_cases h : k = k1 <;> simp [lookup_pair, h, ih]

theorem lookup_dictDel_self {p : List (String × Nat)} {k : String}
    (h : (p.map Prod.fst).Nodup) : (dictDel p k).lookup k = none := by
  induction p with
  | nil => simp [dictDel]
  | cons kv rest ih =>
    obtain ⟨k1, v1⟩ := kv
    simp only [List.map_cons, List.nodup_cons] at h
    by_cases h1 : k1 = k
    · subst h1
      have hd : dictDel ((k1, v1) :: rest) k1 = rest := by simp [dictDel]
      rw [hd]
      cases ho : rest.lookup k1 with
      | none => rfl
      | some v =>
        exact absurd (lookup_isSome_iff.mp (by simp [ho])) h.1
    · simp [dictDel, h1, lookup_pair, Ne.symm h1, ih h.2]

/-! ### `_swap` -/

theorem swapHeap_length (l : List Task) (i j : Nat) :
    (swapHeap l i j).length = l.length := by
  simp [swapHeap]

theorem nth_swapHeap_fst {l : List Task} {i j : Nat} (hi : i < l.length)
    (hj : j < l.length) : nth (swapHeap l i j) i = nth l j := by
  by_cases h : i = j
  · subst h
    exact nth_set_self (by simpa using hi)
  · unfold swapHeap
    rw [nth_set_ne (Ne.symm h), nth_set_self hi]

theorem nth_swapHeap_snd {l : List Task} {i j : Nat} (hj : j < l.length) :
    nth (swapHeap l i j) j = nth l i := by
  exact nth_set_self (by simpa using hj)

theorem nth_swapHeap_other {l : List Task} {i j k : Nat} (hki : k ≠ i) (hkj : k ≠ j) :
    nth (swapHeap l i j) k = nth l k := by
  unfold swapHeap
  rw [nth_set_ne (Ne.symm hkj), nth_set_ne (Ne.symm hki)]

theorem count_set_eq {l : List Task} {i : Nat} (a x : Task) (h : i < l.length) :
    (l.set i a).count x + (if l[i] = x then 1 else 0)
      = l.count x + (if a = x then 1 else 0) := by
  rw [List.count_set a x l i h]
  have hc : (if (l[i] == x) = true then 1 else 0) ≤ List.count x l := by
    split
    · rename_i hx
      have hm : l[i] ∈ l := List.getElem_mem h
      rw [eq_of_beq hx] at hm
      exact List.count_pos_iff.mpr hm
    · omega
  by_cases h1 : l[i] = x <;> by_cases h2 : a = x <;>
    simp_all [beq_iff_eq] <;> omega

theorem swapHeap_perm {l : List Task} {i j : Nat} (hi : i < l.length)
    (hj : j < l.length) : (swapHeap l i j).Perm l := by
  by_cases e : i = j
  · subst e
    have hs : l.set i (nth l i) = l := by
      rw [nth_eq_getElem hi]
      apply List.ext_getElem?
      intro n
      by_cases hn : n = i
      · subst hn
        rw [List.getElem?_set_eq (by simpa using hi), List.getElem?_eq_getElem hi]
      · rw [List.getElem?_set_ne (Ne.symm hn)]
    unfold swapHeap
    rw [hs, hs]
  · rw [List.perm_iff_count]
    intro x
    have h1 := count_set_eq (nth l j) x hi
    have hj2 : j < (l.set i (nth l j)).length := by simpa using hj
    have h2 := count_set_eq (nth l i) x hj2
    rw [nth_eq_getElem hj] at h1
    simp only [nth_eq_getElem hi, nth_eq_getElem hj, List.getElem_set_ne e] at h2
    unfold swapHeap
    rw [nth_eq_getElem hi, nth_eq_getElem hj]
    by_cases c1 : l[i] = x <;> by_cases c2 : l[j] = x <;>
      simp only [c1, c2, if_pos, if_neg, ite_true, ite_false, if_true, if_false,
        eq_self_iff_true, not_false_iff] at h1 h2 ⊢ <;>
      omega

/-! ### Invariants -/

theorem childIdx_parent {c : Nat} (h : 0 < c) : childIdx ((c - 1) / 2) c := by
  unfold childIdx
  omega

theorem childIdx_inj {i c : Nat} (h : childIdx i c) : i = (c - 1) / 2 := by
  unfold childIdx at h
  omega

theorem childIdx_gt {i c : Nat} (h : childIdx i c) : i < c := by
  unfold childIdx at h
  omega

theorem childIdx_pos {i c : Nat} (h : childIdx i c) : 0 < c := by
  unfold childIdx at h
  omega

theorem depth_zero : depth 0 = 0 := by
  rw [depth]
  simp

theorem depth_pos_eq {i : Nat} (h : 0 < i) : depth i = depth ((i - 1) / 2) + 1 := by
  rw [depth]
  simp [Nat.pos_iff_ne_zero.mp h]

theorem depth_child {i c : Nat} (h : childIdx i c) : depth c = depth i + 1 := by
  rw [depth_pos_eq (childIdx_pos h), ← childIdx_inj h]

/-! ### Facts about `_swap` on the full state -/

theorem posOk_ne_ids {s : PQ} (h : PosOk s) {i j : Nat} (hi : i < s.heap.length)
    (hj : j < s.heap.length) (hij : i ≠ j) :
    (nth s.heap i).task_id ≠ (nth s.heap j).task_id := by
  intro he
  have e1 := h.fwd i hi
  have e2 := h.fwd j hj
  rw [he, e2] at e1
  exact hij (Option.some.inj e1).symm

theorem swapState_eq {s : PQ} {i j : Nat} (hi : i < s.heap.length)
    (hj : j < s.heap.length) :
    swapState s i j = ⟨swapHeap s.heap i j,
      dictSet (dictSet s.pos (nth s.heap j).task_id i) (nth s.heap i).task_id j⟩ := by
  simp only [swapState, nth_swapHeap_fst hi hj, nth_swapHeap_snd hj]

theorem swapState_lookup {s : PQ} {i j : Nat} (hi : i < s.heap.length)
    (hj : j < s.heap.length) (id : String) :
    (swapState s i j).pos.lookup id =
      if id = (nth s.heap i).task_id then some j
      else if id = (nth s.heap j).task_id then some i
      else s.pos.lookup id := by
  rw [swapState_eq hi hj]
  simp only [lookup_dictSet]

theorem swapState_perm {s : PQ} {i j : Nat} (hi : i < s.heap.length)
    (hj : j < s.heap.length) : (swapState s i j).heap.Perm s.heap := by
  rw [swapState_eq hi hj]
  exact swapHeap_perm hi hj

theorem swapState_posOk {s : PQ} (h : PosOk s) {i j : Nat} (hi : i < s.heap.length)
    (hj : j < s.heap.length) (hij : i ≠ j) : PosOk (swapState s i j) := by
  have hids := posOk_ne_ids h hi hj hij
  have hlen : (swapState s i j).heap.length = s.heap.length := swapState_heap_length s i j
  have hheap : (swapState s i j).heap = swapHeap s.heap i j := by
    rw [swapState_eq hi hj]
  constructor
  · rw [swapState_eq hi hj]
    exact nodupKeys_dictSet (nodupKeys_dictSet h.nodup)
  · intro k hk
    rw [hlen] at hk
    rw [swapState_lookup hi hj, hheap]
    by_cases hki : k = i
    · subst hki
      rw [nth_swapHeap_fst hi hj, if_neg (Ne.symm hids), if_pos rfl]
    · by_cases hkj : k = j
      · subst hkj
        rw [nth_swapHeap_snd hj, if_pos rfl]
      · rw [nth_swapHeap_other hki hkj,
          if_neg (posOk_ne_ids h hk hi hki),
          if_neg (posOk_ne_ids h hk hj hkj)]
        exact h.fwd k hk
  · intro id k hlk
    rw [swapState_lookup hi hj] at hlk
    rw [hlen, hheap]
    by_cases h1 : id = (nth s.heap i).task_id
    · rw [if_pos h1] at hlk
      obtain rfl : j = k := Option.some.inj hlk
      exact ⟨hj, by rw [nth_swapHeap_snd hj, h1]⟩
    · rw [if_neg h1] at hlk
      by_cases h2 : id = (nth s.heap j).task_id
      · rw [if_pos h2] at hlk
        obtain rfl : i = k := Option.some.inj hlk
        exact ⟨hi, by rw [nth_swapHeap_fst hi hj, h2]⟩
      · rw [if_neg h2] at hlk
        obtain ⟨hk, hid⟩ := h.bwd id k hlk
        refine ⟨hk, ?_⟩
        rw [nth_swapHeap_other (fun e => h1 (by rw [← hid, e]))
          (fun e => h2 (by rw [← hid, e]))]
        exact hid

/-! ### Transfer of the sift invariants across one swap -/

theorem not_HP_of_false {a b : Task} (h : higher_priority a b = false) : ¬ HP a b := by
  simp [HP, h]

theorem parent_lt {i : Nat} (h : 0 < i) : (i - 1) / 2 < i := by
  have : (i - 1) / 2 ≤ i - 1 := Nat.div_le_self _ _
  omega

theorem upOk_swap {s : PQ} {idx : Nat} (hidx : 0 < idx) (hn : idx < s.heap.length)
    (hup : UpOk s idx) (hswap : HP (nth s.heap idx) (nth s.heap ((idx - 1) / 2))) :
    UpOk (swapState s idx ((idx - 1) / 2)) ((idx - 1) / 2) := by
  have hplt : (idx - 1) / 2 < idx := parent_lt hidx
  have hpn : (idx - 1) / 2 < s.heap.length := lt_trans hplt hn
  have hlen := swapState_heap_length s idx ((idx - 1) / 2)
  have hfst : nth (swapState s idx ((idx - 1) / 2)).heap idx
      = nth s.heap ((idx - 1) / 2) := nth_swapHeap_fst hn hpn
  have hsnd : nth (swapState s idx ((idx - 1) / 2)).heap ((idx - 1) / 2)
      = nth s.heap idx := nth_swapHeap_snd hpn
  have hoth : ∀ k, k ≠ idx → k ≠ (idx - 1) / 2 →
      nth (swapState s idx ((idx - 1) / 2)).heap k = nth s.heap k :=
    fun k h1 h2 => nth_swapHeap_other h1 h2
  constructor
  · intro i c hc hcc hcp
    rw [hlen] at hc
    by_cases hci : c = idx
    · subst hci
      obtain rfl : i = (c - 1) / 2 := childIdx_inj hcc
      rw [hfst, hsnd]
      exact HP_asymm hswap
    · have hcgt := childIdx_gt hcc
      by_cases hii : i = idx
      · subst hii
        rw [hoth c hci (by omega), hfst]
        exact hup.2 c hc hcc hidx
      · by_cases hip : i = (idx - 1) / 2
        · subst hip
          rw [hoth c hci hcp, hsnd]
          intro hcon
          exact hup.1 _ c hc hcc hci (HP_trans hcon hswap)
        · rw [hoth c hci hcp, hoth i hii hip]
          exact hup.1 i c hc hcc hci
  · intro c hc hcc hppos
    rw [hlen] at hc
    have hpplt : ((idx - 1) / 2 - 1) / 2 < (idx - 1) / 2 := parent_lt hppos
    have hpp : nth (swapState s idx ((idx - 1) / 2)).heap (((idx - 1) / 2 - 1) / 2)
        = nth s.heap (((idx - 1) / 2 - 1) / 2) := hoth _ (by omega) (by omega)
    have hedge : ¬ HP (nth s.heap ((idx - 1) / 2))
        (nth s.heap (((idx - 1) / 2 - 1) / 2)) :=
      hup.1 _ _ hpn (childIdx_parent hppos) (by omega)
    have hcgt := childIdx_gt hcc
    by_cases hci : c = idx
    · subst hci
      rw [hfst, hpp]
      exact hedge
    · rw [hoth c hci (by omega), hpp]
      exact HP_neg_trans (hup.1 _ c hc hcc hci) hedge

theorem downOk_swap {s : PQ} {idx best : Nat} (hbn : best < s.heap.length)
    (hchild : childIdx idx best)
    (hother : ∀ c, c < s.heap.length → childIdx idx c → ¬ HP (nth s.heap c) (nth s.heap best))
    (hdown : DownOk s idx) (hswap : HP (nth s.heap best) (nth s.heap idx)) :
    DownOk (swapState s idx best) best := by
  have hgt : idx < best := childIdx_gt hchild
  have hn : idx < s.heap.length := lt_trans hgt hbn
  have hlen := swapState_heap_length s idx best
  have hfst : nth (swapState s idx best).heap idx = nth s.heap best :=
    nth_swapHeap_fst hn hbn
  have hsnd : nth (swapState s idx best).heap best = nth s.heap idx :=
    nth_swapHeap_snd hbn
  have hoth : ∀ k, k ≠ idx → k ≠ best →
      nth (swapState s idx best).heap k = nth s.heap k :=
    fun k h1 h2 => nth_swapHeap_other h1 h2
  have hbeq : idx = (best - 1) / 2 := childIdx_inj hchild
  constructor
  · intro i c hc hcc hib
    rw [hlen] at hc
    have hcgt := childIdx_gt hcc
    by_cases hii : i = idx
    · subst hii
      by_cases hcb : c = best
      · subst hcb
        rw [hfst, hsnd]
        exact HP_asymm hswap
      · rw [hoth c (by omega) hcb, hfst]
        exact hother c hc hcc
    · by_cases hci : c = idx
      · subst hci
        have hcpos := childIdx_pos hcc
        obtain rfl : i = (c - 1) / 2 := childIdx_inj hcc
        rw [hfst, hoth _ hii (by omega)]
        rw [childIdx_inj hcc]
        exact hdown.2 best hbn hchild hcpos
      · by_cases hcb : c = best
        · subst hcb
          exact absurd (childIdx_inj hcc ▸ hbeq ▸ rfl : i = idx) hii
        · rw [hoth c hci hcb, hoth i hii hib]
          exact hdown.1 i c hc hcc hii
  · intro c hc hcc hbpos
    rw [hlen] at hc
    have hcgt := childIdx_gt hcc
    have hpar : (best - 1) / 2 = idx := hbeq.symm
    rw [hpar]
    rw [hoth c (by omega) (by omega), hfst]
    exact hdown.1 best c hc hcc (by omega)

/-! ### Full specification of `_sift_up` -/

theorem sift_up_go_spec (fuel : Nat) :
    ∀ (s : PQ) (idx : Nat), idx ≤ fuel → idx < s.heap.length → PosOk s →
    PosOk (sift_up_go s idx fuel) ∧
    (sift_up_go s idx fuel).heap.length = s.heap.length ∧
    (sift_up_go s idx fuel).heap.Perm s.heap ∧
    (UpOk s idx → HeapOrd (sift_up_go s idx fuel)) ∧
    (∃ j, depth j ≤ depth idx ∧
      (sift_up_go s idx fuel).pos.lookup (nth s.heap idx).task_id = some j) := by
  induction fuel with
  | zero =>
    intro s idx hf hn hpos
    obtain rfl : idx = 0 := by omega
    refine ⟨hpos, rfl, List.Perm.refl _, ?_, 0, le_rfl, hpos.fwd 0 hn⟩
    intro hup i c hc hcc
    exact hup.1 i c hc hcc (by have := childIdx_pos hcc; omega)
  | succ fuel ih =>
    intro s idx hf hn hpos
    by_cases hidx : 0 < idx
    · by_cases hg : higher_priority (nth s.heap idx) (nth s.heap ((idx - 1) / 2)) = true
      · have hstep : sift_up_go s idx (fuel + 1)
            = sift_up_go (swapState s idx ((idx - 1) / 2)) ((idx - 1) / 2) fuel := by
          simp only [sift_up_go, if_pos hidx, if_pos hg]
        have hplt : (idx - 1) / 2 < idx := parent_lt hidx
        have hpn : (idx - 1) / 2 < s.heap.length := lt_trans hplt hn
        have hpn2 : (idx - 1) / 2 < (swapState s idx ((idx - 1) / 2)).heap.length := by
          rw [swapState_heap_length]
          exact hpn
        have hpos2 : PosOk (swapState s idx ((idx - 1) / 2)) :=
          swapState_posOk hpos hn hpn (by omega)
        obtain ⟨ihpos, ihlen, ihperm, ihord, j, hdj, hlk⟩ :=
          ih (swapState s idx ((idx - 1) / 2)) ((idx - 1) / 2) (by omega) hpn2 hpos2
        rw [hstep]
        refine ⟨ihpos, ?_, ?_, ?_, j, ?_, ?_⟩
        · rw [ihlen, swapState_heap_length]
        · exact ihperm.trans (swapState_perm hn hpn)
        · intro hup
          exact ihord (upOk_swap hidx hn hup hg)
        · calc depth j ≤ depth ((idx - 1) / 2) := hdj
            _ ≤ depth idx := by rw [depth_pos_eq hidx]; omega
        · rw [← nth_swapHeap_snd (l := s.heap) (i := idx) hpn]
          exact hlk
      · have hstep : sift_up_go s idx (fuel + 1) = s := by
          simp only [sift_up_go, if_pos hidx, if_neg hg]
        rw [hstep]
        refine ⟨hpos, rfl, List.Perm.refl _, ?_, idx, le_rfl, hpos.fwd idx hn⟩
        intro hup i c hc hcc
        by_cases hci : c = idx
        · subst hci
          obtain rfl : i = (c - 1) / 2 := childIdx_inj hcc
          exact not_HP_of_false (Bool.eq_false_iff.mpr hg)
        · exact hup.1 i c hc hcc hci
    · obtain rfl : idx = 0 := by omega
      have hstep : sift_up_go s 0 (fuel + 1) = s := by
        simp [sift_up_go]
      rw [hstep]
      refine ⟨hpos, rfl, List.Perm.refl _, ?_, 0, le_rfl, hpos.fwd 0 hn⟩
      intro hup i c hc hcc
      exact hup.1 i c hc hcc (by have := childIdx_pos hcc; omega)

theorem sift_up_spec {s : PQ} {idx : Nat} (hn : idx < s.heap.length) (hpos : PosOk s) :
    PosOk (sift_up s idx) ∧
    (sift_up s idx).heap.length = s.heap.length ∧
    (sift_up s idx).heap.Perm s.heap ∧
    (UpOk s idx → HeapOrd (sift_up s idx)) ∧
    (∃ j, depth j ≤ depth idx ∧
      (sift_up s idx).pos.lookup (nth s.heap idx).task_id = some j) :=
  sift_up_go_spec idx s idx le_rfl hn hpos

/-! ### Full specification of `_sift_down` -/

theorem sift_down_go_spec (fuel : Nat) :
    ∀ (s : PQ) (idx : Nat), s.heap.length ≤ fuel + idx → PosOk s →
    PosOk (sift_down_go s idx fuel) ∧
    (sift_down_go s idx fuel).heap.length = s.heap.length ∧
    (sift_down_go s idx fuel).heap.Perm s.heap ∧
    (DownOk s idx → HeapOrd (sift_down_go s idx fuel)) ∧
    (idx < s.heap.length → ∃ j, depth idx ≤ depth j ∧
      (sift_down_go s idx fuel).pos.lookup (nth s.heap idx).task_id = some j) := by
  induction fuel with
  | zero =>
    intro s idx hf hpos
    refine ⟨hpos, rfl, List.Perm.refl _, ?_, fun hn => ⟨idx, le_rfl, hpos.fwd idx hn⟩⟩
    intro hd i c hc hcc
    have hc2 : c < s.heap.length := hc
    by_cases hii : i = idx
    · subst hii
      unfold childIdx at hcc
      omega
    · exact hd.1 i c hc2 hcc hii
  | succ fuel ih =>
    intro s idx hf hpos
    by_cases hl : 2 * idx + 1 < s.heap.length
    · have hn : idx < s.heap.length := by omega
      by_cases hb : 2 * idx + 1 + 1 < s.heap.length ∧
          higher_priority (nth s.heap (2 * idx + 1 + 1)) (nth s.heap (2 * idx + 1)) = true
      · -- best is the right child
        have hbn : 2 * idx + 2 < s.heap.length := by omega
        have hchild : childIdx idx (2 * idx + 2) := Or.inr rfl
        have hother : ∀ c, c < s.heap.length → childIdx idx c →
            ¬ HP (nth s.heap c) (nth s.heap (2 * idx + 2)) := by
          intro c hc hcc
          rcases hcc with rfl | rfl
          · exact HP_asymm hb.2
          · exact HP_irrefl _
        by_cases hg : higher_priority (nth s.heap (2 * idx + 1 + 1)) (nth s.heap idx) = true
        · have hstep : sift_down_go s idx (fuel + 1)
              = sift_down_go (swapState s idx (2 * idx + 1 + 1)) (2 * idx + 1 + 1) fuel := by
            simp only [sift_down_go, if_pos hl, if_pos hb, if_pos hg]
          have hbn2 : (2 * idx + 1 + 1) < (swapState s idx (2 * idx + 1 + 1)).heap.length := by
            rw [swapState_heap_length]
            omega
          have hpos2 : PosOk (swapState s idx (2 * idx + 1 + 1)) :=
            swapState_posOk hpos hn (by omega) (by omega)
          obtain ⟨ihpos, ihlen, ihperm, ihord, ihtr⟩ :=
            ih (swapState s idx (2 * idx + 1 + 1)) (2 * idx + 1 + 1)
              (by rw [swapState_heap_length]; omega) hpos2
          obtain ⟨j, hdj, hlk⟩ := ihtr hbn2
          rw [hstep]
          refine ⟨ihpos, ?_, ?_, ?_, fun hn2 => ⟨j, ?_, ?_⟩⟩
          · rw [ihlen, swapState_heap_length]
          · exact ihperm.trans (swapState_perm hn (by omega))
          · intro hd
            exact ihord (downOk_swap (by omega) hchild hother hd hg)
          · calc depth idx ≤ depth (2 * idx + 2) := by
                  rw [depth_child hchild]; omega
              _ ≤ depth j := hdj
          · rw [← nth_swapHeap_snd (l := s.heap) (i := idx) (by omega : 2 * idx + 1 + 1 < s.heap.length)]
            exact hlk
        · have hstep : sift_down_go s idx (fuel + 1) = s := by
            simp only [sift_down_go, if_pos hl, if_pos hb, if_neg hg]
          rw [hstep]
          refine ⟨hpos, rfl, List.Perm.refl _, ?_, fun hn2 => ⟨idx, le_rfl, hpos.fwd idx hn2⟩⟩
          intro hd i c hc hcc
          by_cases hii : i = idx
          · subst hii
            rcases hcc with rfl | rfl
            · intro hcon
              exact not_HP_of_false (Bool.eq_false_iff.mpr hg) (HP_trans hb.2 hcon)
            · exact not_HP_of_false (Bool.eq_false_iff.mpr hg)
          · exact hd.1 i c hc hcc hii
      · -- best is the left child
        have hother : ∀ c, c < s.heap.length → childIdx idx c →
            ¬ HP (nth s.heap c) (nth s.heap (2 * idx + 1)) := by
          intro c hc hcc
          rcases hcc with rfl | rfl
          · exact HP_irrefl _
          · intro hcon
            exact hb ⟨hc, hcon⟩
        have hchild : childIdx idx (2 * idx + 1) := Or.inl rfl
        by_cases hg : higher_priority (nth s.heap (2 * idx + 1)) (nth s.heap idx) = true
        · have hstep : sift_down_go s idx (fuel + 1)
              = sift_down_go (swapState s idx (2 * idx + 1)) (2 * idx + 1) fuel := by
            simp only [sift_down_go, if_pos hl, if_neg hb, if_pos hg]
          have hbn2 : (2 * idx + 1) < (swapState s idx (2 * idx + 1)).heap.length := by
            rw [swapState_heap_length]
            omega
          have hpos2 : PosOk (swapState s idx (2 * idx + 1)) :=
            swapState_posOk hpos hn (by omega) (by omega)
          obtain ⟨ihpos, ihlen, ihperm, ihord, ihtr⟩ :=
            ih (swapState s idx (2 * idx + 1)) (2 * idx + 1)
              (by rw [swapState_heap_length]; omega) hpos2
          obtain ⟨j, hdj, hlk⟩ := ihtr hbn2
          rw [hstep]
          refine ⟨ihpos, ?_, ?_, ?_, fun hn2 => ⟨j, ?_, ?_⟩⟩
          · rw [ihlen, swapState_heap_length]
          · exact ihperm.trans (swapState_perm hn (by omega))
          · intro hd
            exact ihord (downOk_swap (by omega) hchild hother hd hg)
          · calc depth idx ≤ depth (2 * idx + 1) := by
                  rw [depth_child hchild]; omega
              _ ≤ depth j := hdj
          · rw [← nth_swapHeap_snd (l := s.heap) (i := idx) (by omega : 2 * idx + 1 < s.heap.length)]
            exact hlk
        · have hstep : sift_down_go s idx (fuel + 1) = s := by
            simp only [sift_down_go, if_pos hl, if_neg hb, if_neg hg]
          rw [hstep]
          refine ⟨hpos, rfl, List.Perm.refl _, ?_, fun hn2 => ⟨idx, le_rfl, hpos.fwd idx hn2⟩⟩
          intro hd i c hc hcc
          by_cases hii : i = idx
          · subst hii
            rcases hcc with rfl | rfl
            · exact not_HP_of_false (Bool.eq_false_iff.mpr hg)
            · intro hcon
              have hnotrl : ¬ HP (nth s.heap (2 * i + 1 + 1)) (nth s.heap (2 * i + 1)) := by
                intro hcon2
                exact hb ⟨by omega, hcon2⟩
              exact HP_neg_trans hnotrl (not_HP_of_false (Bool.eq_false_iff.mpr hg)) hcon
          · exact hd.1 i c hc hcc hii
    · have hstep : sift_down_go s idx (fuel + 1) = s := by
        simp only [sift_down_go, if_neg hl]
      rw [hstep]
      refine ⟨hpos, rfl, List.Perm.refl _, ?_, fun hn2 => ⟨idx, le_rfl, hpos.fwd idx hn2⟩⟩
      intro hd i c hc hcc
      by_cases hii : i = idx
      · subst hii
        unfold childIdx at hcc
        omega
      · exact hd.1 i c hc hcc hii

theorem sift_down_spec {s : PQ} {idx : Nat} (hpos : PosOk s) :
    PosOk (sift_down s idx) ∧
    (sift_down s idx).heap.length = s.heap.length ∧
    (sift_down s idx).heap.Perm s.heap ∧
    (DownOk s idx → HeapOrd (sift_down s idx)) ∧
    (idx < s.heap.length → ∃ j, depth idx ≤ depth j ∧
      (sift_down s idx).pos.lookup (nth s.heap idx).task_id = some j) :=
  sift_down_go_spec s.heap.length s idx (by omega) hpos

/-! ### Consequences of the invariants -/

theorem ids_nodup {s : PQ} (hpos : PosOk s) : (s.heap.map Task.task_id).Nodup := by
  unfold List.Nodup
  rw [List.pairwise_iff_getElem]
  intro i j hi hj hij
  simp only [List.length_map] at hi hj
  rw [List.getElem_map, List.getElem_map, ← nth_eq_getElem hi, ← nth_eq_getElem hj]
  exact posOk_ne_ids hpos hi hj (by omega)

theorem heap_nodup {s : PQ} (hpos : PosOk s) : s.heap.Nodup :=
  (ids_nodup hpos).of_map _

theorem root_not_beaten {s : PQ} (hord : HeapOrd s) :
    ∀ i, i < s.heap.length → ¬ HP (nth s.heap i) (nth s.heap 0) := by
  intro i
  induction i using Nat.strong_induction_on with
  | _ i ih =>
    intro hi
    rcases Nat.eq_zero_or_pos i with rfl | hpos
    · exact HP_irrefl _
    · have hplt : (i - 1) / 2 < i := parent_lt hpos
      exact HP_neg_trans
        (hord _ i hi (childIdx_parent hpos))
        (ih _ hplt (lt_trans hplt hi))

theorem root_strict_max {s : PQ} (hinv : Inv s) :
    ∀ i, 0 < i → i < s.heap.length → HP (nth s.heap 0) (nth s.heap i) := by
  intro i hipos hi
  have h0 : 0 < s.heap.length := by omega
  rcases HP_total_of_ne_id (posOk_ne_ids hinv.1 h0 hi (by omega)) with h | h
  · exact h
  · exact absurd h (root_not_beaten hinv.2 i hi)

/-! ### Specification of `insert` -/

theorem insert_fresh_state {s : PQ} {t : Task}
    (hfresh : s.pos.lookup t.task_id = none) :
    insert s t = .ok (sift_up ⟨s.heap ++ [t], dictSet s.pos t.task_id s.heap.length⟩
      s.heap.length) := by
  unfold insert
  rw [hfresh]
  rfl

theorem insert_spec {s : PQ} {t : Task} (hinv : Inv s)
    (hfresh : s.pos.lookup t.task_id = none) :
    ∃ s', insert s t = .ok s' ∧ Inv s' ∧
      s'.heap.length = s.heap.length + 1 ∧
      s'.heap.Perm (s.heap ++ [t]) := by
  obtain ⟨hpos, hord⟩ := hinv
  set s0 : PQ := ⟨s.heap ++ [t], dictSet s.pos t.task_id s.heap.length⟩ with hs0
  have hlen0 : s0.heap.length = s.heap.length + 1 := by simp [hs0]
  have hids : ∀ i, i < s.heap.length → (nth s.heap i).task_id ≠ t.task_id := by
    intro i hi he
    have := hpos.fwd i hi
    rw [he, hfresh] at this
    exact Option.noConfusion this
  have hpos0 : PosOk s0 := by
    constructor
    · exact nodupKeys_dictSet hpos.nodup
    · intro i hi
      rw [hlen0] at hi
      rcases Nat.lt_or_ge i s.heap.length with hi2 | hi2
      · show (dictSet s.pos t.task_id s.heap.length).lookup
          (nth (s.heap ++ [t]) i).task_id = some i
        rw [nth_append_lt hi2, lookup_dictSet, if_neg (hids i hi2)]
        exact hpos.fwd i hi2
      · obtain rfl : i = s.heap.length := by omega
        show (dictSet s.pos t.task_id s.heap.length).lookup
          (nth (s.heap ++ [t]) s.heap.length).task_id = some s.heap.length
        rw [nth_concat_length, lookup_dictSet, if_pos rfl]
    · intro id k hlk
      rw [hlen0]
      have hlk2 : (dictSet s.pos t.task_id s.heap.length).lookup id = some k := hlk
      rw [lookup_dictSet] at hlk2
      by_cases hid : id = t.task_id
      · rw [if_pos hid] at hlk2
        obtain rfl : s.heap.length = k := Option.some.inj hlk2
        refine ⟨by omega, ?_⟩
        show (nth (s.heap ++ [t]) s.heap.length).task_id = id
        rw [nth_concat_length, hid]
      · rw [if_neg hid] at hlk2
        obtain ⟨hk, hkid⟩ := hpos.bwd id k hlk2
        refine ⟨by omega, ?_⟩
        show (nth (s.heap ++ [t]) k).task_id = id
        rw [nth_append_lt hk]
        exact hkid
  have hup : UpOk s0 s.heap.length := by
    constructor
    · intro i c hc hcc hcn
      rw [hlen0] at hc
      have hci : c < s.heap.length := by omega
      have hilt : i < c := childIdx_gt hcc
      show ¬ HP (nth (s.heap ++ [t]) c) (nth (s.heap ++ [t]) i)
      rw [nth_append_lt hci, nth_append_lt (by omega)]
      exact hord i c hci hcc
    · intro c hc hcc _
      rw [hlen0] at hc
      have := childIdx_gt hcc
      omega
  have hn0 : s.heap.length < s0.heap.length := by omega
  obtain ⟨hpos1, hlen1, hperm1, hord1, -⟩ := sift_up_spec hn0 hpos0
  refine ⟨_, insert_fresh_state hfresh, ⟨hpos1, hord1 hup⟩, ?_, ?_⟩
  · rw [hlen1, hlen0]
  · exact hperm1

/-! ### Specification of `extract_max` -/

theorem nth_cons_zero (a : Task) (l : List Task) : nth (a :: l) 0 = a := by
  simp [nth]

theorem nth_cons_succ (a : Task) (l : List Task) (k : Nat) :
    nth (a :: l) (k + 1) = nth l k := by
  simp [nth]

theorem mem_iff_nth_eq {l : List Task} {a : Task} :
    a ∈ l ↔ ∃ i, ∃ h : i < l.length, nth l i = a := by
  rw [List.mem_iff_getElem]
  constructor
  · rintro ⟨i, hi, rfl⟩
    exact ⟨i, hi, nth_eq_getElem hi⟩
  · rintro ⟨i, hi, rfl⟩
    exact ⟨i, hi, (nth_eq_getElem hi).symm⟩

/-- Everything `extract_max` promises about the position index and the
extracted root follows from the invariants of the end state together with the
fact that the new heap holds exactly the old tail. -/
theorem extract_post {s s' : PQ} (hinv : Inv s) (hd : Task) (rest : List Task)
    (hheap : s.heap = hd :: rest) (hinv2 : Inv s')
    (hperm : s'.heap.Perm rest) :
    s'.pos.lookup hd.task_id = none ∧
    (∀ id, id ≠ hd.task_id →
      ((s'.pos.lookup id).isSome ↔ (s.pos.lookup id).isSome)) ∧
    (∀ u ∈ s'.heap, HP hd u) := by
  have hmem_rest : ∀ u ∈ rest, ∃ k, 0 < k ∧ ∃ hk : k < s.heap.length, nth s.heap k = u := by
    intro u hu
    obtain ⟨k, hk, hku⟩ := mem_iff_nth_eq.mp hu
    refine ⟨k + 1, by omega, by rw [hheap]; simpa using Nat.succ_lt_succ hk, ?_⟩
    rw [hheap, nth_cons_succ]
    exact hku
  have hhd : nth s.heap 0 = hd := by
    rw [hheap, nth_cons_zero]
  constructor
  · cases ho : s'.pos.lookup hd.task_id with
    | none => rfl
    | some k =>
      obtain ⟨hk, hkid⟩ := hinv2.1.bwd _ k ho
      have hmem : nth s'.heap k ∈ rest := hperm.mem_iff.mp (nth_mem hk)
      obtain ⟨k2, hk2pos, hk2, hk2eq⟩ := hmem_rest _ hmem
      have : (nth s.heap k2).task_id ≠ (nth s.heap 0).task_id :=
        posOk_ne_ids hinv.1 hk2 (by rw [hheap]; simp) (by omega)
      rw [hk2eq, hkid, hhd] at this
      exact absurd rfl this
  constructor
  · intro id hid
    constructor
    · intro hsome
      obtain ⟨k, hlk⟩ := Option.isSome_iff_exists.mp hsome
      obtain ⟨hk, hkid⟩ := hinv2.1.bwd _ k hlk
      have hmem : nth s'.heap k ∈ rest := hperm.mem_iff.mp (nth_mem hk)
      obtain ⟨k2, hk2pos, hk2, hk2eq⟩ := hmem_rest _ hmem
      have := hinv.1.fwd k2 hk2
      rw [hk2eq, hkid] at this
      rw [this]
      rfl
    · intro hsome
      obtain ⟨k, hlk⟩ := Option.isSome_iff_exists.mp hsome
      obtain ⟨hk, hkid⟩ := hinv.1.bwd _ k hlk
      have hkpos : 0 < k := by
        rcases Nat.eq_zero_or_pos k with rfl | h
        · rw [hhd] at hkid
          exact absurd hkid.symm hid
        · exact h
      have hmem : nth s.heap k ∈ rest := by
        rw [hheap, show k = (k - 1) + 1 by omega, nth_cons_succ]
        apply mem_iff_nth_eq.mpr
        refine ⟨k - 1, ?_, rfl⟩
        rw [hheap] at hk
        simp at hk
        omega
      have hmem2 : nth s.heap k ∈ s'.heap := hperm.mem_iff.mpr hmem
      obtain ⟨j, hj, hjeq⟩ := mem_iff_nth_eq.mp hmem2
      have := hinv2.1.fwd j hj
      rw [hjeq, hkid] at this
      rw [this]
      rfl
  · intro u hu
    obtain ⟨k2, hk2pos, hk2, hk2eq⟩ := hmem_rest _ (hperm.mem_iff.mp hu)
    rw [← hk2eq, ← hhd]
    exact root_strict_max hinv k2 hk2pos hk2

theorem extract_spec {s : PQ} (hinv : Inv s) (hne : s.heap ≠ []) :
    ∃ s', extract_max s = .ok (nth s.heap 0, s') ∧ Inv s' ∧
      s'.heap.length = s.heap.length - 1 ∧
      s'.heap.Perm s.heap.tail ∧
      s'.pos.lookup (nth s.heap 0).task_id = none ∧
      (∀ id, id ≠ (nth s.heap 0).task_id →
        ((s'.pos.lookup id).isSome ↔ (s.pos.lookup id).isSome)) ∧
      (∀ u ∈ s'.heap, HP (nth s.heap 0) u) := by
  obtain ⟨heap, pos⟩ := s
  obtain ⟨hpos, hord⟩ := hinv
  match heap, hne with
  | [hd], _ =>
    have hx : extract_max ⟨[hd], pos⟩ = .ok (hd, ⟨[], dictDel pos hd.task_id⟩) := rfl
    have hinv2 : Inv (⟨[], dictDel pos hd.task_id⟩ : PQ) := by
      constructor
      · constructor
        · exact nodupKeys_dictDel hpos.nodup
        · intro i hi
          simp at hi
        · intro id k hlk
          by_cases hid : id = hd.task_id
          · rw [hid, lookup_dictDel_self hpos.nodup] at hlk
            exact Option.noConfusion hlk
          · rw [lookup_dictDel_ne hid] at hlk
            obtain ⟨hk, hkid⟩ := hpos.bwd id k hlk
            have hk2 : k < 1 := hk
            obtain rfl : k = 0 := by omega
            have hdid : hd.task_id = id := hkid
            exact absurd hdid.symm hid
      · intro i c hc hcc
        have hc2 : c < 0 := hc
        omega
    have hpost := extract_post (s := ⟨[hd], pos⟩) ⟨hpos, hord⟩ hd []
      rfl hinv2 (by simp)
    refine ⟨_, by rw [show nth [hd] 0 = hd from nth_cons_zero hd []]; exact hx,
      hinv2, by simp, by simp, ?_, ?_, ?_⟩
    · rw [show nth [hd] 0 = hd from nth_cons_zero hd []]
      exact hpost.1
    · rw [show nth [hd] 0 = hd from nth_cons_zero hd []]
      exact hpost.2.1
    · rw [show nth [hd] 0 = hd from nth_cons_zero hd []]
      exact hpost.2.2
  | hd :: r1 :: rs, _ =>
    set t : List Task := r1 :: rs with ht
    set heap : List Task := hd :: t with hheap
    set n : Nat := heap.length with hn
    have hn2 : 2 ≤ n := by
      rw [hn, hheap, ht]
      simp only [List.length_cons]
      omega
    have hplen : ({ heap := heap, pos := pos } : PQ).heap.length = n := rfl
    have htne : t ≠ [] := by simp [ht]
    set last : Task := nth heap (n - 1) with hlast
    set s0 : PQ := ⟨heap.dropLast.set 0 last,
      dictSet (dictDel pos (nth heap 0).task_id) last.task_id 0⟩ with hs0
    have hdl : heap.dropLast = hd :: t.dropLast := List.dropLast_cons_of_ne_nil htne
    have hdl_len : heap.dropLast.length = n - 1 := by
      rw [List.length_dropLast]
    have hlen0 : s0.heap.length = n - 1 := by
      rw [hs0]
      simpa using hdl_len
    have hlen_ne : ¬ (heap.dropLast.length = 0) := by
      rw [hdl_len]
      omega
    have hx : extract_max ⟨heap, pos⟩ = .ok (nth heap 0, sift_down s0 0) := by
      show (if heap.dropLast.length = 0 then
          Except.ok (nth heap 0, (⟨heap.dropLast, dictDel pos (nth heap 0).task_id⟩ : PQ))
        else .ok (nth heap 0, sift_down s0 0)) = .ok (nth heap 0, sift_down s0 0)
      rw [if_neg hlen_ne]
    have hhd0 : nth heap 0 = hd := nth_cons_zero hd t
    have htop_last : (nth heap 0).task_id ≠ last.task_id := by
      rw [hlast]
      exact posOk_ne_ids hpos (by omega) (by omega) (by omega)
    have hnth0 : nth s0.heap 0 = last := by
      rw [hs0]
      exact nth_set_self (by rw [hdl_len]; omega)
    have hnth_mid : ∀ k, 0 < k → k < n - 1 → nth s0.heap k = nth heap k := by
      intro k h1 h2
      rw [hs0]
      show nth (heap.dropLast.set 0 last) k = nth heap k
      rw [nth_set_ne (by omega), nth_dropLast (by omega)]
    have hpos0 : PosOk s0 := by
      constructor
      · exact nodupKeys_dictSet (nodupKeys_dictDel hpos.nodup)
      · intro k hk
        rw [hlen0] at hk
        rcases Nat.eq_zero_or_pos k with rfl | hkpos
        · rw [hnth0]
          show (dictSet (dictDel pos (nth heap 0).task_id) last.task_id 0).lookup
            last.task_id = some 0
          rw [lookup_dictSet, if_pos rfl]
        · rw [hnth_mid k hkpos hk]
          have hid1 : (nth heap k).task_id ≠ last.task_id := by
            rw [hlast]
            exact posOk_ne_ids hpos (by omega) (by omega) (by omega)
          have hid2 : (nth heap k).task_id ≠ (nth heap 0).task_id :=
            posOk_ne_ids hpos (by omega) (by omega) (by omega)
          show (dictSet (dictDel pos (nth heap 0).task_id) last.task_id 0).lookup
            (nth heap k).task_id = some k
          rw [lookup_dictSet, if_neg hid1, lookup_dictDel_ne hid2]
          exact hpos.fwd k (by omega)
      · intro id k hlk
        rw [hlen0]
        have hlk2 : (dictSet (dictDel pos (nth heap 0).task_id) last.task_id 0).lookup
            id = some k := hlk
        rw [lookup_dictSet] at hlk2
        by_cases hid : id = last.task_id
        · rw [if_pos hid] at hlk2
          obtain rfl : (0 : Nat) = k := Option.some.inj hlk2
          refine ⟨by omega, ?_⟩
          rw [hnth0, hid]
        · rw [if_neg hid] at hlk2
          by_cases hid2 : id = (nth heap 0).task_id
          · rw [hid2, lookup_dictDel_self hpos.nodup] at hlk2
            exact Option.noConfusion hlk2
          · rw [lookup_dictDel_ne hid2] at hlk2
            obtain ⟨hk, hkid⟩ := hpos.bwd id k hlk2
            have hkne0 : k ≠ 0 := by
              intro hk0
              rw [hk0] at hkid
              exact hid2 hkid.symm
            have hknel : k ≠ n - 1 := by
              intro hkl
              rw [hkl, ← hlast] at hkid
              exact hid hkid.symm
            refine ⟨by omega, ?_⟩
            rw [hnth_mid k (by omega) (by omega)]
            exact hkid
    have hdown : DownOk s0 0 := by
      constructor
      · intro i c hc hcc hii
        rw [hlen0] at hc
        have higt := childIdx_gt hcc
        rw [hnth_mid i (by omega) (by omega), hnth_mid c (by omega) (by omega)]
        exact hord i c (by omega) hcc
      · intro c hc hcc h0
        exact absurd h0 (lt_irrefl 0)
    obtain ⟨hpos1, hlen1, hperm1, hord1, -⟩ := @sift_down_spec _ 0 hpos0
    have hlast_getLast : last = t.getLast htne := by
      have hb : t.length - 1 < t.length := by
        rw [ht]
        simp
      rw [hlast, List.getLast_eq_getElem, ← nth_eq_getElem hb]
      have he : n - 1 = (t.length - 1) + 1 := by
        rw [hn, hheap]
        simp only [List.length_cons]
        omega
      rw [he, hheap, nth_cons_succ]
    have hperm_tail : s0.heap.Perm t := by
      rw [hs0]
      show (heap.dropLast.set 0 last).Perm t
      rw [hdl]
      show (last :: t.dropLast).Perm t
      calc (last :: t.dropLast).Perm (t.dropLast ++ [last]) :=
            (List.perm_append_singleton last t.dropLast).symm
        _ = t := by rw [hlast_getLast, List.dropLast_concat_getLast]
    have hinv2 : Inv (sift_down s0 0) := ⟨hpos1, hord1 hdown⟩
    have hperm2 : (sift_down s0 0).heap.Perm t := hperm1.trans hperm_tail
    have hpost := extract_post (s := ⟨heap, pos⟩) ⟨hpos, hord⟩ hd t rfl hinv2 hperm2
    refine ⟨_, hx, hinv2, by rw [hlen1, hlen0], ?_, ?_, ?_, ?_⟩
    · exact hperm2
    · rw [hhd0]
      exact hpost.1
    · rw [hhd0]
      exact hpost.2.1
    · rw [hhd0]
      exact hpost.2.2

/-! ### Specification of `increase_key` and `decrease_key` -/

theorem increase_key_spec {s : PQ} (hinv : Inv s) {id : String} {np : Int} {i : Nat}
    (hlk : s.pos.lookup id = some i)
    (hge : ¬ np < (nth s.heap i).priority) :
    ∃ s', increase_key s id np = .ok s' ∧ Inv s' ∧
      s'.heap.length = s.heap.length ∧
      s'.heap.Perm (s.heap.set i { nth s.heap i with priority := np }) ∧
      ∃ j, depth j ≤ depth i ∧ s'.pos.lookup id = some j := by
  obtain ⟨hpos, hord⟩ := hinv
  obtain ⟨hn, hid⟩ := hpos.bwd id i hlk
  set t2 : Task := { nth s.heap i with priority := np } with ht2
  set s0 : PQ := ⟨s.heap.set i t2, s.pos⟩ with hs0
  have hx : increase_key s id np = .ok (sift_up s0 i) := by
    unfold increase_key
    rw [hlk]
    show (if np < (nth s.heap i).priority then Except.error Err.InvalidArgument
      else .ok (sift_up s0 i)) = .ok (sift_up s0 i)
    rw [if_neg hge]
  have hlen0 : s0.heap.length = s.heap.length := by
    rw [hs0]
    exact List.length_set s.heap i t2
  have ht2id : t2.task_id = (nth s.heap i).task_id := rfl
  have hids_eq : ∀ k, k < s.heap.length →
      (nth s0.heap k).task_id = (nth s.heap k).task_id := by
    intro k hk
    by_cases hki : k = i
    · subst hki
      rw [hs0]
      show (nth (s.heap.set k t2) k).task_id = (nth s.heap k).task_id
      rw [nth_set_self hk, ht2id]
    · rw [hs0]
      show (nth (s.heap.set i t2) k).task_id = (nth s.heap k).task_id
      rw [nth_set_ne (fun e => hki e.symm)]
  have hnth_ne : ∀ k, k ≠ i → nth s0.heap k = nth s.heap k := by
    intro k hk
    rw [hs0]
    show nth (s.heap.set i t2) k = nth s.heap k
    rw [nth_set_ne (fun e => hk e.symm)]
  have hnth_i : nth s0.heap i = t2 := by
    rw [hs0]
    show nth (s.heap.set i t2) i = t2
    rw [nth_set_self hn]
  have hpos0 : PosOk s0 := by
    constructor
    · exact hpos.nodup
    · intro k hk
      rw [hlen0] at hk
      rw [hids_eq k hk]
      exact hpos.fwd k hk
    · intro id2 k hlk2
      obtain ⟨hk, hkid⟩ := hpos.bwd id2 k hlk2
      rw [hlen0]
      exact ⟨hk, by rw [hids_eq k hk]; exact hkid⟩
  have hple : (nth s.heap i).priority ≤ np := by omega
  have hup : UpOk s0 i := by
    constructor
    · intro i2 c hc hcc hci
      rw [hlen0] at hc
      rw [hnth_ne c hci]
      by_cases hii : i2 = i
      · subst hii
        rw [hnth_i, ht2]
        exact HP_not_beat_raise hple (hord i2 c hc hcc)
      · rw [hnth_ne i2 hii]
        exact hord i2 c hc hcc
    · intro c hc hcc hipos
      rw [hlen0] at hc
      have hcgt := childIdx_gt hcc
      have hplt := parent_lt hipos
      rw [hnth_ne c (by omega), hnth_ne _ (by omega)]
      exact HP_neg_trans (hord i c hc hcc)
        (hord _ i hn (childIdx_parent hipos))
  obtain ⟨hpos1, hlen1, hperm1, hord1, j, hdj, hlkj⟩ :=
    sift_up_spec (show i < s0.heap.length by omega) hpos0
  refine ⟨_, hx, ⟨hpos1, hord1 hup⟩, by rw [hlen1, hlen0], hperm1, j, hdj, ?_⟩
  rw [hnth_i, ht2] at hlkj
  have : t2.task_id = id := by rw [ht2id, hid]
  rw [ht2] at this
  rw [← this]
  exact hlkj

theorem decrease_key_spec {s : PQ} (hinv : Inv s) {id : String} {np : Int} {i : Nat}
    (hlk : s.pos.lookup id = some i)
    (hle : ¬ np > (nth s.heap i).priority) :
    ∃ s', decrease_key s id np = .ok s' ∧ Inv s' ∧
      s'.heap.length = s.heap.length ∧
      s'.heap.Perm (s.heap.set i { nth s.heap i with priority := np }) ∧
      ∃ j, depth i ≤ depth j ∧ s'.pos.lookup id = some j := by
  obtain ⟨hpos, hord⟩ := hinv
  obtain ⟨hn, hid⟩ := hpos.bwd id i hlk
  set t2 : Task := { nth s.heap i with priority := np } with ht2
  set s0 : PQ := ⟨s.heap.set i t2, s.pos⟩ with hs0
  have hx : decrease_key s id np = .ok (sift_down s0 i) := by
    unfold decrease_key
    rw [hlk]
    show (if np > (nth s.heap i).priority then Except.error Err.InvalidArgument
      else .ok (sift_down s0 i)) = .ok (sift_down s0 i)
    rw [if_neg hle]
  have hlen0 : s0.heap.length = s.heap.length := by
    rw [hs0]
    exact List.length_set s.heap i t2
  have ht2id : t2.task_id = (nth s.heap i).task_id := rfl
  have hids_eq : ∀ k, k < s.heap.length →
      (nth s0.heap k).task_id = (nth s.heap k).task_id := by
    intro k hk
    by_cases hki : k = i
    · subst hki
      rw [hs0]
      show (nth (s.heap.set k t2) k).task_id = (nth s.heap k).task_id
      rw [nth_set_self hk, ht2id]
    · rw [hs0]
      show (nth (s.heap.set i t2) k).task_id = (nth s.heap k).task_id
      rw [nth_set_ne (fun e => hki e.symm)]
  have hnth_ne : ∀ k, k ≠ i → nth s0.heap k = nth s.heap k := by
    intro k hk
    rw [hs0]
    show nth (s.heap.set i t2) k = nth s.heap k
    rw [nth_set_ne (fun e => hk e.symm)]
  have hnth_i : nth s0.heap i = t2 := by
    rw [hs0]
    show nth (s.heap.set i t2) i = t2
    rw [nth_set_self hn]
  have hpos0 : PosOk s0 := by
    constructor
    · exact hpos.nodup
    · intro k hk
      rw [hlen0] at hk
      rw [hids_eq k hk]
      exact hpos.fwd k hk
    · intro id2 k hlk2
      obtain ⟨hk, hkid⟩ := hpos.bwd id2 k hlk2
      rw [hlen0]
      exact ⟨hk, by rw [hids_eq k hk]; exact hkid⟩
  have hple : np ≤ (nth s.heap i).priority := by omega
  have hdown : DownOk s0 i := by
    constructor
    · intro i2 c hc hcc hii
      rw [hlen0] at hc
      rw [hnth_ne i2 hii]
      by_cases hci : c = i
      · subst hci
        rw [hnth_i, ht2]
        obtain rfl : i2 = (c - 1) / 2 := childIdx_inj hcc
        exact HP_not_win_lower hple (hord _ c hc hcc)
      · rw [hnth_ne c hci]
        exact hord i2 c hc hcc
    · intro c hc hcc hipos
      rw [hlen0] at hc
      have hcgt := childIdx_gt hcc
      have hplt := parent_lt hipos
      rw [hnth_ne c (by omega), hnth_ne _ (by omega)]
      exact HP_neg_trans (hord i c hc hcc)
        (hord _ i hn (childIdx_parent hipos))
  obtain ⟨hpos1, hlen1, hperm1, hord1, htr⟩ := @sift_down_spec _ i hpos0
  obtain ⟨j, hdj, hlkj⟩ := htr (by omega)
  refine ⟨_, hx, ⟨hpos1, hord1 hdown⟩, by rw [hlen1, hlen0], hperm1, j, hdj, ?_⟩
  rw [hnth_i, ht2] at hlkj
  have : t2.task_id = id := by rw [ht2id, hid]
  rw [ht2] at this
  rw [← this]
  exact hlkj

/-! ### Reachable states and the main invariant theorem -/

theorem insert_ok_fresh {s s' : PQ} {t : Task} (h : insert s t = .ok s') :
    s.pos.lookup t.task_id = none := by
  unfold insert at h
  by_cases hs : (s.pos.lookup t.task_id).isSome
  · rw [if_pos hs] at h
    exact Except.noConfusion h
  · exact Option.not_isSome_iff_eq_none.mp hs

theorem extract_ok_ne {s : PQ} {p : Task × PQ} (h : extract_max s = .ok p) :
    s.heap ≠ [] := by
  intro hnil
  obtain ⟨heap, pos⟩ := s
  simp only at hnil
  subst hnil
  exact Except.noConfusion h

theorem increase_ok_cond {s s' : PQ} {id : String} {np : Int}
    (h : increase_key s id np = .ok s') :
    ∃ i, s.pos.lookup id = some i ∧ ¬ np < (nth s.heap i).priority := by
  unfold increase_key at h
  cases hlk : s.pos.lookup id with
  | none =>
    rw [hlk] at h
    exact Except.noConfusion h
  | some i =>
    rw [hlk] at h
    have h2 : (if np < (nth s.heap i).priority then Except.error Err.InvalidArgument
        else Except.ok (sift_up ⟨s.heap.set i { nth s.heap i with priority := np },
          s.pos⟩ i)) = Except.ok s' := h
    refine ⟨i, rfl, ?_⟩
    intro hlt
    rw [if_pos hlt] at h2
    exact Except.noConfusion h2

theorem decrease_ok_cond {s s' : PQ} {id : String} {np : Int}
    (h : decrease_key s id np = .ok s') :
    ∃ i, s.pos.lookup id = some i ∧ ¬ np > (nth s.heap i).priority := by
  unfold decrease_key at h
  cases hlk : s.pos.lookup id with
  | none =>
    rw [hlk] at h
    exact Except.noConfusion h
  | some i =>
    rw [hlk] at h
    have h2 : (if np > (nth s.heap i).priority then Except.error Err.InvalidArgument
        else Except.ok (sift_down ⟨s.heap.set i { nth s.heap i with priority := np },
          s.pos⟩ i)) = Except.ok s' := h
    refine ⟨i, rfl, ?_⟩
    intro hlt
    rw [if_pos hlt] at h2
    exact Except.noConfusion h2

theorem inv_empty : Inv emptyPQ := by
  constructor
  · constructor
    · simp [emptyPQ]
    · intro i hi
      simp [emptyPQ] at hi
    · intro id k hlk
      simp [emptyPQ] at hlk
  · intro i c hc hcc
    simp [emptyPQ] at hc

/-- Both invariants hold in every reachable state. -/
theorem reachable_inv {s : PQ} (h : Reachable s) : Inv s := by
  induction h with
  | empty => exact inv_empty
  | insert_step hre hok ih =>
    obtain ⟨s2, hok2, hinv2, -, -⟩ := insert_spec ih (insert_ok_fresh hok)
    rw [hok] at hok2
    obtain rfl := (Except.ok.inj hok2)
    exact hinv2
  | extract_step hre hok ih =>
    obtain ⟨s2, hok2, hinv2, -⟩ := extract_spec ih (extract_ok_ne hok)
    rw [hok] at hok2
    obtain rfl := (Except.ok.inj hok2).symm
    exact hinv2
  | increase_step hre hok ih =>
    obtain ⟨i, hlk, hge⟩ := increase_ok_cond hok
    obtain ⟨s2, hok2, hinv2, -⟩ := increase_key_spec ih hlk hge
    rw [hok] at hok2
    obtain rfl := (Except.ok.inj hok2)
    exact hinv2
  | decrease_step hre hok ih =>
    obtain ⟨i, hlk, hle⟩ := decrease_ok_cond hok
    obtain ⟨s2, hok2, hinv2, -⟩ := decrease_key_spec ih hlk hle
    rw [hok] at hok2
    obtain rfl := (Except.ok.inj hok2)
    exact hinv2

/-! ### Residence in terms of the index and in terms of the heap -/

theorem lookup_isSome_mem_iff {s : PQ} (hpos : PosOk s) (id : String) :
    (s.pos.lookup id).isSome = true ↔ ∃ u ∈ s.heap, u.task_id = id := by
  constructor
  · intro hsome
    obtain ⟨k, hlk⟩ := Option.isSome_iff_exists.mp hsome
    obtain ⟨hk, hkid⟩ := hpos.bwd id k hlk
    exact ⟨nth s.heap k, nth_mem hk, hkid⟩
  · rintro ⟨u, hu, rfl⟩
    obtain ⟨k, hk, rfl⟩ := mem_iff_nth_eq.mp hu
    rw [hpos.fwd k hk]
    rfl

theorem lookup_none_mem_iff {s : PQ} (hpos : PosOk s) (id : String) :
    s.pos.lookup id = none ↔ ∀ u ∈ s.heap, u.task_id ≠ id := by
  rw [← Option.not_isSome_iff_eq_none]
  rw [lookup_isSome_mem_iff hpos]
  push_neg
  constructor
  · intro h u hu
    exact h u hu
  · intro h u hu
    exact h u hu

/-! ### Content and length facts that need no invariant -/

theorem sift_up_go_length (fuel : Nat) : ∀ (s : PQ) (idx : Nat),
    (sift_up_go s idx fuel).heap.length = s.heap.length := by
  induction fuel with
  | zero => intro s idx; rfl
  | succ fuel ih =>
    intro s idx
    by_cases hidx : 0 < idx
    · by_cases hg : higher_priority (nth s.heap idx) (nth s.heap ((idx - 1) / 2)) = true
      · rw [show sift_up_go s idx (fuel + 1)
            = sift_up_go (swapState s idx ((idx - 1) / 2)) ((idx - 1) / 2) fuel by
          simp only [sift_up_go, if_pos hidx, if_pos hg]]
        rw [ih, swapState_heap_length]
      · rw [show sift_up_go s idx (fuel + 1) = s by
          simp only [sift_up_go, if_pos hidx, if_neg hg]]
    · obtain rfl : idx = 0 := by omega
      rw [show sift_up_go s 0 (fuel + 1) = s by simp [sift_up_go]]

theorem sift_up_go_perm (fuel : Nat) : ∀ (s : PQ) (idx : Nat),
    idx < s.heap.length → (sift_up_go s idx fuel).heap.Perm s.heap := by
  induction fuel with
  | zero => intro s idx _; exact List.Perm.refl _
  | succ fuel ih =>
    intro s idx hn
    by_cases hidx : 0 < idx
    · by_cases hg : higher_priority (nth s.heap idx) (nth s.heap ((idx - 1) / 2)) = true
      · rw [show sift_up_go s idx (fuel + 1)
            = sift_up_go (swapState s idx ((idx - 1) / 2)) ((idx - 1) / 2) fuel by
          simp only [sift_up_go, if_pos hidx, if_pos hg]]
        have hpn : (idx - 1) / 2 < s.heap.length := lt_trans (parent_lt hidx) hn
        exact (ih _ _ (by rw [swapState_heap_length]; exact hpn)).trans
          (swapState_perm hn hpn)
      · rw [show sift_up_go s idx (fuel + 1) = s by
          simp only [sift_up_go, if_pos hidx, if_neg hg]]
    · obtain rfl : idx = 0 := by omega
      rw [show sift_up_go s 0 (fuel + 1) = s by simp [sift_up_go]]

theorem sift_down_go_length (fuel : Nat) : ∀ (s : PQ) (idx : Nat),
    (sift_down_go s idx fuel).heap.length = s.heap.length := by
  induction fuel with
  | zero => intro s idx; rfl
  | succ fuel ih =>
    intro s idx
    by_cases hl : 2 * idx + 1 < s.heap.length
    · by_cases hb : 2 * idx + 1 + 1 < s.heap.length ∧
          higher_priority (nth s.heap (2 * idx + 1 + 1)) (nth s.heap (2 * idx + 1)) = true
      · by_cases hg : higher_priority (nth s.heap (2 * idx + 1 + 1)) (nth s.heap idx) = true
        · rw [show sift_down_go s idx (fuel + 1)
              = sift_down_go (swapState s idx (2 * idx + 1 + 1)) (2 * idx + 1 + 1) fuel by
            simp only [sift_down_go, if_pos hl, if_pos hb, if_pos hg]]
          rw [ih, swapState_heap_length]
        · rw [show sift_down_go s idx (fuel + 1) = s by
            simp only [sift_down_go, if_pos hl, if_pos hb, if_neg hg]]
      · by_cases hg : higher_priority (nth s.heap (2 * idx + 1)) (nth s.heap idx) = true
        · rw [show sift_down_go s idx (fuel + 1)
              = sift_down_go (swapState s idx (2 * idx + 1)) (2 * idx + 1) fuel by
            simp only [sift_down_go, if_pos hl, if_neg hb, if_pos hg]]
          rw [ih, swapState_heap_length]
        · rw [show sift_down_go s idx (fuel + 1) = s by
            simp only [sift_down_go, if_pos hl, if_neg hb, if_neg hg]]
    · rw [show sift_down_go s idx (fuel + 1) = s by
        simp only [sift_down_go, if_neg hl]]

theorem sift_down_go_perm (fuel : Nat) : ∀ (s : PQ) (idx : Nat),
    (sift_down_go s idx fuel).heap.Perm s.heap := by
  induction fuel with
  | zero => intro s idx; exact List.Perm.refl _
  | succ fuel ih =>
    intro s idx
    by_cases hl : 2 * idx + 1 < s.heap.length
    · have hn : idx < s.heap.length := by omega
      by_cases hb : 2 * idx + 1 + 1 < s.heap.length ∧
          higher_priority (nth s.heap (2 * idx + 1 + 1)) (nth s.heap (2 * idx + 1)) = true
      · by_cases hg : higher_priority (nth s.heap (2 * idx + 1 + 1)) (nth s.heap idx) = true
        · rw [show sift_down_go s idx (fuel + 1)
              = sift_down_go (swapState s idx (2 * idx + 1 + 1)) (2 * idx + 1 + 1) fuel by
            simp only [sift_down_go, if_pos hl, if_pos hb, if_pos hg]]
          exact (ih _ _).trans (swapState_perm hn (by omega))
        · rw [show sift_down_go s idx (fuel + 1) = s by
            simp only [sift_down_go, if_pos hl, if_pos hb, if_neg hg]]
      · by_cases hg : higher_priority (nth s.heap (2 * idx + 1)) (nth s.heap idx) = true
        · rw [show sift_down_go s idx (fuel + 1)
              = sift_down_go (swapState s idx (2 * idx + 1)) (2 * idx + 1) fuel by
            simp only [sift_down_go, if_pos hl, if_neg hb, if_pos hg]]
          exact (ih _ _).trans (swapState_perm hn (by omega))
        · rw [show sift_down_go s idx (fuel + 1) = s by
            simp only [sift_down_go, if_pos hl, if_neg hb, if_neg hg]]
    · rw [show sift_down_go s idx (fuel + 1) = s by
        simp only [sift_down_go, if_neg hl]]

theorem insert_content {s s' : PQ} {t : Task} (h : insert s t = .ok s') :
    s'.heap.Perm (s.heap ++ [t]) := by
  have hfresh := insert_ok_fresh h
  rw [insert_fresh_state hfresh] at h
  obtain rfl := Except.ok.inj h
  have : ((s.heap ++ [t]).length - 1) < (s.heap ++ [t]).length := by
    simp
  exact sift_up_go_perm _ _ _ (by simp)

theorem extract_max_content {s s' : PQ} {t : Task} (h : extract_max s = .ok (t, s')) :
    s.heap ≠ [] ∧ t = nth s.heap 0 ∧ s'.heap.Perm s.heap.tail := by
  obtain ⟨heap, pos⟩ := s
  match heap, h with
  | [hd], h =>
    have hx : extract_max ⟨[hd], pos⟩ = .ok (hd, ⟨[], dictDel pos hd.task_id⟩) := rfl
    rw [hx] at h
    obtain ⟨h1, h2⟩ := Prod.mk.injEq .. ▸ Except.ok.inj h
    refine ⟨by simp, ?_, ?_⟩
    · rw [← h1]
      rfl
    · rw [← h2]
      simp
  | hd :: r1 :: rs, h =>
    set t2 : List Task := r1 :: rs with ht2
    set heap : List Task := hd :: t2 with hheap
    set n : Nat := heap.length with hn
    have hn2 : 2 ≤ n := by
      rw [hn, hheap, ht2]
      simp only [List.length_cons]
      omega
    have htne : t2 ≠ [] := by simp [ht2]
    set last : Task := nth heap (n - 1) with hlast
    set s0 : PQ := ⟨heap.dropLast.set 0 last,
      dictSet (dictDel pos (nth heap 0).task_id) last.task_id 0⟩ with hs0
    have hdl : heap.dropLast = hd :: t2.dropLast := List.dropLast_cons_of_ne_nil htne
    have hdl_len : heap.dropLast.length = n - 1 := by
      rw [List.length_dropLast]
    have hlen_ne : ¬ (heap.dropLast.length = 0) := by
      rw [hdl_len]
      omega
    have hx : extract_max ⟨heap, pos⟩ = .ok (nth heap 0, sift_down s0 0) := by
      show (if heap.dropLast.length = 0 then
          Except.ok (nth heap 0, (⟨heap.dropLast, dictDel pos (nth heap 0).task_id⟩ : PQ))
        else .ok (nth heap 0, sift_down s0 0)) = .ok (nth heap 0, sift_down s0 0)
      rw [if_neg hlen_ne]
    rw [hx] at h
    obtain ⟨h1, h2⟩ := Prod.mk.injEq .. ▸ Except.ok.inj h
    have hlast_getLast : last = t2.getLast htne := by
      have hb : t2.length - 1 < t2.length := by
        rw [ht2]
        simp
      rw [hlast, List.getLast_eq_getElem, ← nth_eq_getElem hb]
      have he : n - 1 = (t2.length - 1) + 1 := by
        rw [hn, hheap]
        simp only [List.length_cons]
        omega
      rw [he, hheap, nth_cons_succ]
    have hperm_tail : s0.heap.Perm t2 := by
      rw [hs0]
      show (heap.dropLast.set 0 last).Perm t2
      rw [hdl]
      show (last :: t2.dropLast).Perm t2
      calc (last :: t2.dropLast).Perm (t2.dropLast ++ [last]) :=
            (List.perm_append_singleton last t2.dropLast).symm
        _ = t2 := by rw [hlast_getLast, List.dropLast_concat_getLast]
    refine ⟨by simp [hheap], h1.symm, ?_⟩
    rw [← h2]
    show (sift_down s0 0).heap.Perm t2
    exact (sift_down_go_perm _ _ _).trans hperm_tail

theorem extract_max_length {s s' : PQ} {t : Task} (h : extract_max s = .ok (t, s')) :
    s'.heap.length = s.heap.length - 1 ∧ 0 < s.heap.length := by
  obtain ⟨hne, -, hperm⟩ := extract_max_content h
  constructor
  · rw [hperm.length_eq, List.length_tail]
  · exact List.length_pos_of_ne_nil hne

theorem insertAll_content : ∀ (l : List Task) (s s' : PQ),
    insertAll s l = .ok s' → s'.heap.Perm (s.heap ++ l) := by
  intro l
  induction l with
  | nil =>
    intro s s' h
    obtain rfl := Except.ok.inj h
    simp
  | cons t rest ih =>
    intro s s' h
    rw [show insertAll s (t :: rest) = do insertAll (← insert s t) rest from rfl] at h
    cases hins : insert s t with
    | error e =>
      rw [hins] at h
      exact Except.noConfusion h
    | ok s1 =>
      rw [hins] at h
      have hperm1 := insert_content hins
      have hperm2 := ih s1 s' h
      have hperm3 : (s1.heap ++ rest).Perm (s.heap ++ t :: rest) := by
        have := hperm1.append_right rest
        simpa using this
      exact hperm2.trans hperm3

/-! ### Draining the queue: repeated `extract_max` until empty -/

theorem insertAll_spec : ∀ (l : List Task) (s : PQ), Inv s →
    (((s.heap ++ l).map Task.task_id).Nodup) →
    ∃ s', insertAll s l = .ok s' ∧ Inv s' ∧ s'.heap.Perm (s.heap ++ l) := by
  intro l
  induction l with
  | nil =>
    intro s hinv hnodup
    exact ⟨s, rfl, hinv, by simp⟩
  | cons t rest ih =>
    intro s hinv hnodup
    rw [List.map_append] at hnodup
    have hdisj := (List.nodup_append.mp hnodup).2.2
    have hfresh : s.pos.lookup t.task_id = none := by
      rw [lookup_none_mem_iff hinv.1]
      intro u hu he
      have h1 : t.task_id ∈ List.map Task.task_id s.heap := by
        rw [← he]
        exact List.mem_map_of_mem _ hu
      exact hdisj h1 (by simp)
    obtain ⟨s1, hok1, hinv1, hlen1, hperm1⟩ := insert_spec hinv hfresh
    have hnodup1 : ((s1.heap ++ rest).map Task.task_id).Nodup := by
      have hp : (s1.heap ++ rest).Perm (s.heap ++ t :: rest) := by
        have := hperm1.append_right rest
        simpa using this
      refine (hp.map Task.task_id).symm.nodup ?_
      rw [List.map_append]
      exact hnodup
    obtain ⟨s2, hok2, hinv2, hperm2⟩ := ih s1 hinv1 hnodup1
    refine ⟨s2, ?_, hinv2, ?_⟩
    · rw [show insertAll s (t :: rest) = do insertAll (← insert s t) rest from rfl,
        hok1]
      exact hok2
    · refine hperm2.trans ?_
      have := hperm1.append_right rest
      simpa using this

theorem extractAll_go_spec : ∀ (fuel : Nat) (s : PQ), s.heap.length ≤ fuel → Inv s →
    (extractAll_go s fuel).Perm s.heap ∧ List.Sorted HP (extractAll_go s fuel) := by
  intro fuel
  induction fuel with
  | zero =>
    intro s hle hinv
    obtain hnil : s.heap = [] := List.length_eq_zero.mp (by omega)
    rw [show extractAll_go s 0 = [] from rfl, hnil]
    exact ⟨List.Perm.refl _, List.sorted_nil⟩
  | succ fuel ih =>
    intro s hle hinv
    by_cases hne : s.heap = []
    · have hx : extract_max s = .error .EmptyQueue := by
        obtain ⟨heap, pos⟩ := s
        simp only at hne
        subst hne
        rfl
      rw [show extractAll_go s (fuel + 1)
          = (match extract_max s with
            | .error _ => []
            | .ok (t, s') => t :: extractAll_go s' fuel) from rfl, hx, hne]
      exact ⟨List.Perm.refl _, List.sorted_nil⟩
    · obtain ⟨s', hx, hinv', hlen', hperm', -, -, hmax⟩ := extract_spec hinv hne
      rw [show extractAll_go s (fuel + 1)
          = (match extract_max s with
            | .error _ => []
            | .ok (t, s2) => t :: extractAll_go s2 fuel) from rfl, hx]
      have hlen : 0 < s.heap.length := List.length_pos_of_ne_nil hne
      obtain ⟨ihperm, ihsorted⟩ := ih s' (by omega) hinv'
      obtain ⟨hd, rest, he⟩ := List.exists_cons_of_ne_nil hne
      have hhd : nth s.heap 0 = hd := by rw [he, nth_cons_zero]
      have htail : s.heap.tail = rest := by rw [he]; rfl
      constructor
      · rw [he, ← hhd]
        refine List.Perm.cons _ ?_
        rw [← htail]
        exact ihperm.trans hperm'
      · rw [List.sorted_cons]
        refine ⟨?_, ihsorted⟩
        intro u hu
        exact hmax u ((ihperm.mem_iff).mp hu)

/-! ### The driver never touches tasks outside the horizon -/

theorem simLoop_congr (ts1 ts2 : List Task) : ∀ (steps : List Nat) (s : PQ),
    (∀ t ∈ steps, ts1.filter (fun u => u.arrival_time = (t : Int))
      = ts2.filter (fun u => u.arrival_time = (t : Int))) →
    simLoop ts1 s steps = simLoop ts2 s steps := by
  intro steps
  induction steps with
  | nil => intro s _; rfl
  | cons t steps ih =>
    intro s h
    have hft := h t (by simp)
    have hrec : ∀ s0 : PQ, simLoop ts1 s0 steps = simLoop ts2 s0 steps :=
      fun s0 => ih s0 (fun t2 ht2 => h t2 (List.mem_cons_of_mem _ ht2))
    simp only [simLoop, hft, hrec]

theorem simLoop_mem (ts : List Task) : ∀ (steps : List Nat) (s : PQ)
    (tl : List (Nat × Task)),
    List.Pairwise (· < ·) steps →
    (∀ u ∈ s.heap, u ∈ ts ∧ 0 ≤ u.arrival_time ∧
      ∀ t2 ∈ steps, u.arrival_time ≤ (t2 : Int)) →
    simLoop ts s steps = .ok tl →
    ∀ p ∈ tl, p.1 ∈ steps ∧ p.2 ∈ ts ∧ 0 ≤ p.2.arrival_time ∧
      p.2.arrival_time ≤ (p.1 : Int) := by
  intro steps
  induction steps with
  | nil =>
    intro s tl _ _ h
    obtain rfl : ([] : List (Nat × Task)) = tl := Except.ok.inj h
    intro p hp
    exact absurd hp (List.not_mem_nil p)
  | cons t steps ih =>
    intro s tl hpw hmem h
    cases hins : insertAll s (ts.filter (fun u => u.arrival_time = (t : Int))) with
    | error e =>
      rw [show simLoop ts s (t :: steps)
          = (do
            let s1 ← insertAll s (ts.filter (fun u => u.arrival_time = (t : Int)))
            if is_empty s1 then simLoop ts s1 steps
            else do
              let (executed, s2) ← extract_max s1
              let rest ← simLoop ts s2 steps
              pure ((t, executed) :: rest)) from rfl, hins] at h
      exact Except.noConfusion h
    | ok s1 =>
      rw [show simLoop ts s (t :: steps)
          = (do
            let s1 ← insertAll s (ts.filter (fun u => u.arrival_time = (t : Int)))
            if is_empty s1 then simLoop ts s1 steps
            else do
              let (executed, s2) ← extract_max s1
              let rest ← simLoop ts s2 steps
              pure ((t, executed) :: rest)) from rfl, hins] at h
      have h2 : (if is_empty s1 then simLoop ts s1 steps
          else do
            let (executed, s2) ← extract_max s1
            let rest ← simLoop ts s2 steps
            pure ((t, executed) :: rest)) = .ok tl := h
      have hs1perm := insertAll_content _ _ _ hins
      have hs1mem : ∀ u ∈ s1.heap, u ∈ ts ∧ 0 ≤ u.arrival_time ∧
          ∀ t2 ∈ t :: steps, u.arrival_time ≤ (t2 : Int) := by
        intro u hu
        have : u ∈ s.heap ++ ts.filter (fun u => u.arrival_time = (t : Int)) :=
          hs1perm.mem_iff.mp hu
        rcases List.mem_append.mp this with hl | hr
        · exact hmem u hl
        · have harr : u.arrival_time = (t : Int) := by
            have := List.of_mem_filter hr
            exact of_decide_eq_true this
          refine ⟨List.mem_of_mem_filter hr, by rw [harr]; positivity, ?_⟩
          intro t2 ht2
          rcases List.mem_cons.mp ht2 with rfl | ht2
          · rw [harr]
          · have hlt := (List.pairwise_cons.mp hpw).1 t2 ht2
            rw [harr]
            exact_mod_cast le_of_lt hlt
      by_cases hemp : is_empty s1
      · rw [if_pos hemp] at h2
        intro p hp
        obtain ⟨hp1, hrest⟩ := ih s1 tl (List.pairwise_cons.mp hpw).2
          (fun u hu => ⟨(hs1mem u hu).1, (hs1mem u hu).2.1,
            fun t2 ht2 => (hs1mem u hu).2.2 t2 (List.mem_cons_of_mem _ ht2)⟩)
          h2 p hp
        exact ⟨List.mem_cons_of_mem _ hp1, hrest⟩
      · rw [if_neg hemp] at h2
        cases hext : extract_max s1 with
        | error e =>
          rw [hext] at h2
          exact Except.noConfusion h2
        | ok q =>
          obtain ⟨executed, s2⟩ := q
          rw [hext] at h2
          have h3 : (do
              let rest ← simLoop ts s2 steps
              pure ((t, executed) :: rest) : Except Err (List (Nat × Task))) = .ok tl := h2
          cases hrec : simLoop ts s2 steps with
          | error e =>
            rw [hrec] at h3
            exact Except.noConfusion h3
          | ok rest =>
            rw [hrec] at h3
            obtain rfl : (t, executed) :: rest = tl := Except.ok.inj h3
            obtain ⟨hne1, hexec, hperm2⟩ := extract_max_content hext
            have hexecmem : executed ∈ s1.heap := by
              rw [hexec]
              exact nth_mem (List.length_pos_of_ne_nil hne1)
            have hs2mem : ∀ u ∈ s2.heap, u ∈ s1.heap := by
              intro u hu
              have : u ∈ s1.heap.tail := hperm2.mem_iff.mp hu
              obtain ⟨hd, rest2, he⟩ := List.exists_cons_of_ne_nil hne1
              rw [he] at this ⊢
              exact List.mem_cons_of_mem _ (by simpa using this)
            intro p hp
            rcases List.mem_cons.mp hp with rfl | hp
            · obtain ⟨hts, harr0, harrle⟩ := hs1mem executed hexecmem
              exact ⟨by simp, hts, harr0, harrle t (by simp)⟩
            · obtain ⟨hp1, hrest⟩ := ih s2 rest (List.pairwise_cons.mp hpw).2
                (fun u hu => ⟨(hs1mem u (hs2mem u hu)).1, (hs1mem u (hs2mem u hu)).2.1,
                  fun t2 ht2 => (hs1mem u (hs2mem u hu)).2.2 t2 (List.mem_cons_of_mem _ ht2)⟩)
                hrec p hp
              exact ⟨List.mem_cons_of_mem _ hp1, hrest⟩

/-! ### Which tasks have arrived by a given time -/

theorem arrived_split (ts : List Task) (t : Nat) :
    (arrivedBy ts (t + 1)).Perm
      (arrivedBy ts t ++ ts.filter (fun u => u.arrival_time = (t : Int))) := by
  induction ts with
  | nil => simp [arrivedBy]
  | cons u rest ih =>
    by_cases h1 : u.arrival_time < (t : Int)
    · simp only [arrivedBy, List.filter_cons] at ih ⊢
      rw [if_pos (decide_eq_true (show u.arrival_time < ((t + 1 : Nat) : Int) by
          push_cast; omega)),
        if_pos (decide_eq_true h1),
        if_neg (by simp only [decide_eq_true_eq]; omega)]
      exact ih.cons u
    · by_cases h2 : u.arrival_time = (t : Int)
      · simp only [arrivedBy, List.filter_cons] at ih ⊢
        rw [if_pos (decide_eq_true (show u.arrival_time < ((t + 1 : Nat) : Int) by
            push_cast; omega)),
          if_neg (by simp only [decide_eq_true_eq]; omega),
          if_pos (decide_eq_true h2)]
        refine (ih.cons u).trans ?_
        exact List.perm_middle.symm
      · simp only [arrivedBy, List.filter_cons] at ih ⊢
        rw [if_neg (by simp only [decide_eq_true_eq]; push_cast; omega),
          if_neg (by simp only [decide_eq_true_eq]; omega),
          if_neg (by simp only [decide_eq_true_eq]; omega)]
        exact ih

theorem arrivedBy_mem {ts : List Task} {t : Nat} {u : Task} :
    u ∈ arrivedBy ts t ↔ u ∈ ts ∧ u.arrival_time < (t : Int) := by
  unfold arrivedBy
  rw [List.mem_filter]
  simp

theorem arrivedBy_count_le_one {ts : List Task} (h : (ts.map Task.task_id).Nodup)
    (t : Nat) (u : Task) : (arrivedBy ts t).count u ≤ 1 := by
  have hnodup : (arrivedBy ts t).Nodup := (List.filter_sublist ts).nodup (h.of_map _)
  exact List.nodup_iff_count_le_one.mp hnodup u

theorem arrivedBy_zero {ts : List Task} (h : ∀ u ∈ ts, 0 ≤ u.arrival_time) :
    arrivedBy ts 0 = [] := by
  unfold arrivedBy
  rw [List.filter_eq_nil_iff]
  intro u hu
  have := h u hu
  simp only [Nat.cast_zero, decide_eq_true_eq]
  omega

/-! ### Main correctness of the driver loop -/

theorem simLoop_main (ts : List Task) (hids : (ts.map Task.task_id).Nodup)
    (harr : ∀ u ∈ ts, 0 ≤ u.arrival_time) :
    ∀ (k t : Nat) (s : PQ) (done : List Task),
    Inv s →
    (s.heap : Multiset Task) = (arrivedBy ts t : Multiset Task) - (done : Multiset Task) →
    (done : Multiset Task) ≤ (arrivedBy ts t : Multiset Task) →
    ∃ tl, simLoop ts s (List.range' t k) = .ok tl ∧
      (∀ p ∈ tl, t ≤ p.1 ∧ p.1 < t + k) ∧
      List.Pairwise (fun p q : Nat × Task => p.1 < q.1) tl ∧
      ∀ j (hj : j < tl.length),
        (tl.get ⟨j, hj⟩).2.arrival_time ≤ ((tl.get ⟨j, hj⟩).1 : Int) ∧
        (tl.get ⟨j, hj⟩).2 ∈ ts ∧
        (tl.get ⟨j, hj⟩).2 ∉ done ∧
        (tl.get ⟨j, hj⟩).2 ∉ (tl.take j).map Prod.snd ∧
        ∀ u ∈ ts, u.arrival_time ≤ ((tl.get ⟨j, hj⟩).1 : Int) →
          u ∉ done → u ∉ (tl.take j).map Prod.snd →
          u ≠ (tl.get ⟨j, hj⟩).2 → HP (tl.get ⟨j, hj⟩).2 u := by
  intro k
  induction k with
  | zero =>
    intro t s done hinv hM hle
    refine ⟨[], rfl, by simp, List.Pairwise.nil, ?_⟩
    intro j hj
    exact absurd hj (by simp)
  | succ k ih =>
    intro t s done hinv hM hle
    set N : List Task := ts.filter (fun u => u.arrival_time = (t : Int)) with hN
    have hN_mem : ∀ u ∈ N, u ∈ ts ∧ u.arrival_time = (t : Int) := by
      intro u hu
      rw [hN, List.mem_filter] at hu
      exact ⟨hu.1, of_decide_eq_true hu.2⟩
    have hinj := List.inj_on_of_nodup_map hids
    have hnodup_batch : ((s.heap ++ N).map Task.task_id).Nodup := by
      rw [List.map_append, List.nodup_append]
      refine ⟨ids_nodup hinv.1, ((List.filter_sublist ts).map _).nodup hids, ?_⟩
      intro x hx1 hx2
      obtain ⟨u, hu, rfl⟩ := List.mem_map.mp hx1
      obtain ⟨v, hv, hveq⟩ := List.mem_map.mp hx2
      have humem : u ∈ (s.heap : Multiset Task) := by
        rw [Multiset.mem_coe]
        exact hu
      rw [hM] at humem
      have huA : u ∈ arrivedBy ts t := by
        have h1 : 0 < Multiset.count u ((arrivedBy ts t : Multiset Task)
            - (done : Multiset Task)) := Multiset.count_pos.mpr humem
        rw [Multiset.count_sub] at h1
        have h2 : 0 < Multiset.count u (arrivedBy ts t : Multiset Task) := by omega
        rw [Multiset.coe_count] at h2
        exact List.count_pos_iff.mp h2
      obtain ⟨huts, hult⟩ := arrivedBy_mem.mp huA
      obtain ⟨hvts, hveqt⟩ := hN_mem v hv
      have : v = u := hinj hvts huts hveq
      subst this
      omega
    obtain ⟨s1, hok1, hinv1, hperm1⟩ := insertAll_spec N s hinv hnodup_batch
    have hA1 : ((arrivedBy ts (t + 1)) : Multiset Task)
        = (arrivedBy ts t : Multiset Task) + (N : Multiset Task) := by
      rw [Multiset.coe_add]
      exact Multiset.coe_eq_coe.mpr (arrived_split ts t)
    have hM1 : (s1.heap : Multiset Task)
        = (arrivedBy ts (t + 1) : Multiset Task) - (done : Multiset Task) := by
      have h1 : (s1.heap : Multiset Task)
          = (s.heap : Multiset Task) + (N : Multiset Task) := by
        rw [Multiset.coe_add]
        exact Multiset.coe_eq_coe.mpr hperm1
      rw [h1, hM, hA1]
      rw [Multiset.ext]
      intro x
      rw [Multiset.count_add, Multiset.count_sub, Multiset.count_sub, Multiset.count_add]
      have := Multiset.le_iff_count.mp hle x
      omega
    have hle1 : (done : Multiset Task) ≤ (arrivedBy ts (t + 1) : Multiset Task) := by
      rw [hA1]
      rw [Multiset.le_iff_count] at hle ⊢
      intro x
      rw [Multiset.count_add]
      have := hle x
      omega
    rw [List.range'_succ]
    by_cases hemp : is_empty s1 = true
    · have heq1 : simLoop ts s (t :: List.range' (t + 1) k)
          = simLoop ts s1 (List.range' (t + 1) k) := by
        rw [show simLoop ts s (t :: List.range' (t + 1) k) = (do
            let s1b ← insertAll s (ts.filter (fun u => u.arrival_time = (t : Int)))
            if is_empty s1b then simLoop ts s1b (List.range' (t + 1) k)
            else do
              let (executed, s2) ← extract_max s1b
              let rest ← simLoop ts s2 (List.range' (t + 1) k)
              pure ((t, executed) :: rest)) from rfl, ← hN, hok1]
        show (if is_empty s1 then simLoop ts s1 (List.range' (t + 1) k)
          else _) = simLoop ts s1 (List.range' (t + 1) k)
        rw [if_pos hemp]
      obtain ⟨tl, hsim, hbound, hpw, hprops⟩ := ih (t + 1) s1 done hinv1 hM1 hle1
      refine ⟨tl, by rw [heq1]; exact hsim, ?_, hpw, ?_⟩
      · intro p hp
        have := hbound p hp
        omega
      · intro j hj
        exact hprops j hj
    · have hne1 : s1.heap ≠ [] := by
        intro h0
        apply hemp
        unfold is_empty
        rw [h0]
        rfl
      obtain ⟨s2, hx, hinv2, hlen2, hperm2, hlknone, hkeys, hmax⟩ :=
        extract_spec hinv1 hne1
      set top : Task := nth s1.heap 0 with htop
      have htopmem : top ∈ s1.heap := nth_mem (List.length_pos_of_ne_nil hne1)
      obtain ⟨hd1, tail1, hcons1⟩ := List.exists_cons_of_ne_nil hne1
      have htop_hd : top = hd1 := by rw [htop, hcons1, nth_cons_zero]
      have hcount_s1 : ∀ x : Task, Multiset.count x (s1.heap : Multiset Task)
          = Multiset.count x (s2.heap : Multiset Task)
            + (if x = top then 1 else 0) := by
        intro x
        rw [hcons1, htop_hd]
        have hc2 : Multiset.count x (s2.heap : Multiset Task)
            = Multiset.count x (tail1 : Multiset Task) := by
          rw [Multiset.coe_count, Multiset.coe_count]
          refine List.Perm.count_eq ?_ x
          refine hperm2.trans ?_
          rw [hcons1]
          exact List.Perm.refl _
        rw [hc2, Multiset.coe_count, Multiset.coe_count, List.count_cons]
        by_cases hxe : x = hd1 <;> simp [hxe, htop_hd, beq_iff_eq]
        exact fun e => hxe e.symm
      have hM2 : (s2.heap : Multiset Task)
          = (arrivedBy ts (t + 1) : Multiset Task)
            - ((done ++ [top]) : Multiset Task) := by
        rw [Multiset.ext]
        intro x
        have h1 := hcount_s1 x
        rw [hM1, Multiset.count_sub] at h1
        rw [Multiset.count_sub, ← Multiset.coe_add, Multiset.count_add]
        have hcnt_sing : Multiset.count x ([top] : Multiset Task)
            = if x = top then 1 else 0 := by
          rw [Multiset.coe_count]
          by_cases hxe : x = top
          · subst hxe
            simp
          · rw [if_neg hxe]
            exact List.count_eq_zero.mpr (by simp [hxe])
        rw [hcnt_sing]
        have hD := Multiset.le_iff_count.mp hle1 x
        omega
      have htop_in_A : 0 < Multiset.count top (arrivedBy ts (t + 1) : Multiset Task)
          ∧ Multiset.count top (done : Multiset Task) = 0 := by
        have h1 : 0 < Multiset.count top (s1.heap : Multiset Task) := by
          rw [Multiset.count_pos, Multiset.mem_coe]
          exact htopmem
        rw [hM1, Multiset.count_sub] at h1
        have h2 : Multiset.count top (arrivedBy ts (t + 1) : Multiset Task) ≤ 1 := by
          rw [Multiset.coe_count]
          exact arrivedBy_count_le_one hids _ _
        omega
      have htop_arr : top ∈ ts ∧ top.arrival_time ≤ (t : Int) := by
        have : top ∈ arrivedBy ts (t + 1) := by
          have := htop_in_A.1
          rw [Multiset.coe_count] at this
          exact List.count_pos_iff.mp this
        obtain ⟨h1, h2⟩ := arrivedBy_mem.mp this
        refine ⟨h1, ?_⟩
        push_cast at h2 ⊢
        omega
      have htop_notdone : top ∉ done := by
        have := htop_in_A.2
        rw [Multiset.coe_count] at this
        exact List.count_eq_zero.mp this
      have hle2 : ((done ++ [top]) : Multiset Task)
          ≤ (arrivedBy ts (t + 1) : Multiset Task) := by
        rw [Multiset.le_iff_count]
        intro x
        rw [← Multiset.coe_add, Multiset.count_add]
        have hD := Multiset.le_iff_count.mp hle1 x
        have hcnt_sing : Multiset.count x ([top] : Multiset Task)
            = if x = top then 1 else 0 := by
          rw [Multiset.coe_count]
          by_cases hxe : x = top
          · subst hxe
            simp
          · rw [if_neg hxe]
            exact List.count_eq_zero.mpr (by simp [hxe])
        rw [hcnt_sing]
        by_cases hxe : x = top
        · rw [if_pos hxe, hxe]
          have h1 := htop_in_A.1
          have h0 := htop_in_A.2
          omega
        · rw [if_neg hxe]
          have hD := Multiset.le_iff_count.mp hle1 x
          omega
      obtain ⟨tl2, hsim2, hbound2, hpw2, hprops2⟩ :=
        ih (t + 1) s2 (done ++ [top]) hinv2 hM2 hle2
      have heq2 : simLoop ts s (t :: List.range' (t + 1) k)
          = .ok ((t, top) :: tl2) := by
        rw [show simLoop ts s (t :: List.range' (t + 1) k) = (do
            let s1b ← insertAll s (ts.filter (fun u => u.arrival_time = (t : Int)))
            if is_empty s1b then simLoop ts s1b (List.range' (t + 1) k)
            else do
              let (executed, s2b) ← extract_max s1b
              let rest ← simLoop ts s2b (List.range' (t + 1) k)
              pure ((t, executed) :: rest)) from rfl, ← hN, hok1]
        show (if is_empty s1 then simLoop ts s1 (List.range' (t + 1) k)
          else do
            let (executed, s2b) ← extract_max s1
            let rest ← simLoop ts s2b (List.range' (t + 1) k)
            pure ((t, executed) :: rest)) = .ok ((t, top) :: tl2)
        rw [if_neg hemp, hx]
        show (do
          let rest ← simLoop ts s2 (List.range' (t + 1) k)
          pure ((t, top) :: rest) : Except Err (List (Nat × Task))) = .ok ((t, top) :: tl2)
        rw [hsim2]
        rfl
      -- the extracted task is maximal among all eligible tasks
      have hmax_top : ∀ u ∈ ts, u.arrival_time ≤ (t : Int) → u ∉ done →
          u ≠ top → HP top u := by
        intro u huts huarr hudone hune
        have huA : u ∈ arrivedBy ts (t + 1) := by
          rw [arrivedBy_mem]
          refine ⟨huts, ?_⟩
          push_cast
          omega
        have hu_s1 : u ∈ s1.heap := by
          have h1 : 0 < Multiset.count u (s1.heap : Multiset Task) := by
            rw [hM1, Multiset.count_sub]
            have h2 : 0 < Multiset.count u (arrivedBy ts (t + 1) : Multiset Task) := by
              rw [Multiset.count_pos, Multiset.mem_coe]
              exact huA
            have h3 : Multiset.count u (done : Multiset Task) = 0 := by
              rw [Multiset.coe_count]
              exact List.count_eq_zero.mpr hudone
            omega
          rw [Multiset.count_pos, Multiset.mem_coe] at h1
          exact h1
        have hu_s2 : u ∈ s2.heap := by
          rw [hcons1] at hu_s1
          rcases List.mem_cons.mp hu_s1 with rfl | htail
          · exact absurd htop_hd.symm hune
          · refine hperm2.mem_iff.mpr ?_
            rw [hcons1]
            exact htail
        exact hmax u hu_s2
      refine ⟨(t, top) :: tl2, heq2, ?_, ?_, ?_⟩
      · intro p hp
        rcases List.mem_cons.mp hp with rfl | hp2
        · exact ⟨le_rfl, by omega⟩
        · have := hbound2 p hp2
          omega
      · rw [List.pairwise_cons]
        refine ⟨?_, hpw2⟩
        intro q hq
        have := (hbound2 q hq).1
        show t < q.1
        omega
      · intro j hj
        match j, hj with
        | 0, hj =>
          refine ⟨htop_arr.2, htop_arr.1, htop_notdone, by simp, ?_⟩
          intro u huts huarr hudone _ hune
          exact hmax_top u huts huarr hudone hune
        | j + 1, hj =>
          have hj2 : j < tl2.length := by
            simpa using Nat.lt_of_succ_lt_succ hj
          obtain ⟨harr2, hmem2, hnotdone2, hnottake2, hmax2⟩ := hprops2 j hj2
          have hget : ((t, top) :: tl2).get ⟨j + 1, hj⟩ = tl2.get ⟨j, hj2⟩ := rfl
          have htake : (((t, top) :: tl2).take (j + 1)).map Prod.snd
              = top :: (tl2.take j).map Prod.snd := rfl
          rw [hget, htake]
          have hnotdone2a : (tl2.get ⟨j, hj2⟩).2 ∉ done := by
            intro hc
            exact hnotdone2 (List.mem_append.mpr (Or.inl hc))
          have hnottop : (tl2.get ⟨j, hj2⟩).2 ≠ top := by
            intro hc
            exact hnotdone2 (List.mem_append.mpr (Or.inr (by rw [hc]; simp)))
          refine ⟨harr2, hmem2, hnotdone2a, ?_, ?_⟩
          · intro hc
            rcases List.mem_cons.mp hc with hc1 | hc2
            · exact hnottop hc1
            · exact hnottake2 hc2
          · intro u huts huarr hudone hutake hune
            refine hmax2 u huts huarr ?_ ?_ hune
            · intro hc
              rcases List.mem_append.mp hc with hc1 | hc2
              · exact hudone hc1
              · have : u = top := by simpa using hc2
                exact hutake (by rw [this]; exact List.mem_cons_self _ _)
            · intro hc
              exact hutake (List.mem_cons_of_mem _ hc)

/-! ### Exact characterization of every failure -/

theorem insert_error_char {s : PQ} {t : Task} {e : Err} :
    insert s t = .error e ↔
      ((s.pos.lookup t.task_id).isSome = true ∧ e = .DuplicateKey) := by
  unfold insert
  by_cases hs : (s.pos.lookup t.task_id).isSome = true
  · rw [if_pos hs]
    constructor
    · intro he
      exact ⟨hs, (Except.error.inj he).symm⟩
    · rintro ⟨-, rfl⟩
      rfl
  · rw [if_neg hs]
    constructor
    · intro he
      exact Except.noConfusion he
    · rintro ⟨hs2, -⟩
      exact absurd hs2 hs

theorem extract_error_char {s : PQ} {e : Err} :
    extract_max s = .error e ↔ (s.heap = [] ∧ e = .EmptyQueue) := by
  obtain ⟨heap, pos⟩ := s
  cases heap with
  | nil =>
    constructor
    · intro he
      exact ⟨rfl, (Except.error.inj he).symm⟩
    · rintro ⟨-, rfl⟩
      rfl
  | cons hd rest =>
    constructor
    · intro he
      by_cases hdl : ((hd :: rest).dropLast).length = 0
      · rw [show extract_max ⟨hd :: rest, pos⟩
            = (if ((hd :: rest).dropLast).length = 0 then
              Except.ok (nth (hd :: rest) 0,
                (⟨(hd :: rest).dropLast, dictDel pos (nth (hd :: rest) 0).task_id⟩ : PQ))
            else .ok (nth (hd :: rest) 0, sift_down
              ⟨((hd :: rest).dropLast).set 0 (nth (hd :: rest) ((hd :: rest).length - 1)),
                dictSet (dictDel pos (nth (hd :: rest) 0).task_id)
                  (nth (hd :: rest) ((hd :: rest).length - 1)).task_id 0⟩ 0))
            from rfl, if_pos hdl] at he
        exact Except.noConfusion he
      · rw [show extract_max ⟨hd :: rest, pos⟩
            = (if ((hd :: rest).dropLast).length = 0 then
              Except.ok (nth (hd :: rest) 0,
                (⟨(hd :: rest).dropLast, dictDel pos (nth (hd :: rest) 0).task_id⟩ : PQ))
            else .ok (nth (hd :: rest) 0, sift_down
              ⟨((hd :: rest).dropLast).set 0 (nth (hd :: rest) ((hd :: rest).length - 1)),
                dictSet (dictDel pos (nth (hd :: rest) 0).task_id)
                  (nth (hd :: rest) ((hd :: rest).length - 1)).task_id 0⟩ 0))
            from rfl, if_neg hdl] at he
        exact Except.noConfusion he
    · rintro ⟨he, -⟩
      exact List.noConfusion he

theorem peek_error_char {s : PQ} {e : Err} :
    peek_max s = .error e ↔ (s.heap = [] ∧ e = .EmptyQueue) := by
  unfold peek_max
  by_cases hs : s.heap.length = 0
  · rw [if_pos hs]
    constructor
    · intro he
      exact ⟨List.length_eq_zero.mp hs, (Except.error.inj he).symm⟩
    · rintro ⟨-, rfl⟩
      rfl
  · rw [if_neg hs]
    constructor
    · intro he
      exact Except.noConfusion he
    · rintro ⟨he, -⟩
      exact absurd (by rw [he]; rfl) hs

theorem increase_char (s : PQ) (id : String) (np : Int) :
    (increase_key s id np = .error .NotFound ↔ s.pos.lookup id = none) ∧
    (increase_key s id np = .error .InvalidArgument ↔
      ∃ i, s.pos.lookup id = some i ∧ np < (nth s.heap i).priority) ∧
    ((∃ s2, increase_key s id np = .ok s2) ↔
      ∃ i, s.pos.lookup id = some i ∧ ¬ np < (nth s.heap i).priority) := by
  cases hlk : s.pos.lookup id with
  | none =>
    have hx : increase_key s id np = .error .NotFound := by
      unfold increase_key
      rw [hlk]
    refine ⟨⟨fun _ => rfl, fun _ => hx⟩, ?_, ?_⟩
    · constructor
      · intro he
        rw [hx] at he
        exact absurd (Except.error.inj he) (fun h => Err.noConfusion h)
      · rintro ⟨i, hi, -⟩
        exact Option.noConfusion hi
    · constructor
      · rintro ⟨s2, hs2⟩
        rw [hx] at hs2
        exact Except.noConfusion hs2
      · rintro ⟨i, hi, -⟩
        exact Option.noConfusion hi
  | some i =>
    have hx : increase_key s id np
        = (if np < (nth s.heap i).priority then Except.error Err.InvalidArgument
          else Except.ok (sift_up ⟨s.heap.set i { nth s.heap i with priority := np },
            s.pos⟩ i)) := by
      unfold increase_key
      rw [hlk]
    by_cases hlt : np < (nth s.heap i).priority
    · rw [if_pos hlt] at hx
      rw [hx]
      refine ⟨?_, ?_, ?_⟩
      · exact ⟨fun he => absurd (Except.error.inj he) (fun h => Err.noConfusion h),
          fun he => Option.noConfusion he⟩
      · exact ⟨fun _ => ⟨i, rfl, hlt⟩, fun _ => rfl⟩
      · constructor
        · rintro ⟨s2, hs2⟩
          exact Except.noConfusion hs2
        · rintro ⟨i2, hi2, hge⟩
          obtain rfl := Option.some.inj hi2
          exact absurd hlt hge
    · rw [if_neg hlt] at hx
      rw [hx]
      refine ⟨?_, ?_, ?_⟩
      · exact ⟨fun he => Except.noConfusion he, fun he => Option.noConfusion he⟩
      · constructor
        · intro he
          exact Except.noConfusion he
        · rintro ⟨i2, hi2, hlt2⟩
          obtain rfl := Option.some.inj hi2
          exact absurd hlt2 hlt
      · exact ⟨fun _ => ⟨i, rfl, hlt⟩, fun _ => ⟨_, rfl⟩⟩

theorem decrease_char (s : PQ) (id : String) (np : Int) :
    (decrease_key s id np = .error .NotFound ↔ s.pos.lookup id = none) ∧
    (decrease_key s id np = .error .InvalidArgument ↔
      ∃ i, s.pos.lookup id = some i ∧ np > (nth s.heap i).priority) ∧
    ((∃ s2, decrease_key s id np = .ok s2) ↔
      ∃ i, s.pos.lookup id = some i ∧ ¬ np > (nth s.heap i).priority) := by
  cases hlk : s.pos.lookup id with
  | none =>
    have hx : decrease_key s id np = .error .NotFound := by
      unfold decrease_key
      rw [hlk]
    refine ⟨⟨fun _ => rfl, fun _ => hx⟩, ?_, ?_⟩
    · constructor
      · intro he
        rw [hx] at he
        exact absurd (Except.error.inj he) (fun h => Err.noConfusion h)
      · rintro ⟨i, hi, -⟩
        exact Option.noConfusion hi
    · constructor
      · rintro ⟨s2, hs2⟩
        rw [hx] at hs2
        exact Except.noConfusion hs2
      · rintro ⟨i, hi, -⟩
        exact Option.noConfusion hi
  | some i =>
    have hx : decrease_key s id np
        = (if np > (nth s.heap i).priority then Except.error Err.InvalidArgument
          else Except.ok (sift_down ⟨s.heap.set i { nth s.heap i with priority := np },
            s.pos⟩ i)) := by
      unfold decrease_key
      rw [hlk]
    by_cases hlt : np > (nth s.heap i).priority
    · rw [if_pos hlt] at hx
      rw [hx]
      refine ⟨?_, ?_, ?_⟩
      · exact ⟨fun he => absurd (Except.error.inj he) (fun h => Err.noConfusion h),
          fun he => Option.noConfusion he⟩
      · exact ⟨fun _ => ⟨i, rfl, hlt⟩, fun _ => rfl⟩
      · constructor
        · rintro ⟨s2, hs2⟩
          exact Except.noConfusion hs2
        · rintro ⟨i2, hi2, hge⟩
          obtain rfl := Option.some.inj hi2
          exact absurd hlt hge
    · rw [if_neg hlt] at hx
      rw [hx]
      refine ⟨?_, ?_, ?_⟩
      · exact ⟨fun he => Except.noConfusion he, fun he => Option.noConfusion he⟩
      · constructor
        · intro he
          exact Except.noConfusion he
        · rintro ⟨i2, hi2, hlt2⟩
          obtain rfl := Option.some.inj hi2
          exact absurd hlt2 hlt
      · exact ⟨fun _ => ⟨i, rfl, hlt⟩, fun _ => ⟨_, rfl⟩⟩

/-! ### Concrete fixtures for witnesses (the `__main__` demo and small states) -/

theorem reach_pqW1 : Reachable pqW1 :=
  Reachable.insert_step Reachable.empty
    (show insert emptyPQ wx = .ok pqW1 from rfl)

theorem reach_pqW2 : Reachable pqW2 :=
  Reachable.insert_step reach_pqW1
    (show insert pqW1 wy = .ok pqW2 from rfl)

/-! ### The claims -/

/-- C1: on every reachable non-empty queue, `extract_max` returns the root
task, which is strictly higher-priority (under the three-level comparator)
than every other resident task; it removes exactly that task from the heap
store (the new heap holds exactly the old tail, up to order) and from the
position index (its id is gone, every other id stays), and the size drops by
exactly one. -/
theorem claim_C1_extract_max (s : PQ) (hre : Reachable s) (hne : s.heap ≠ []) :
    ∃ s', extract_max s = .ok (nth s.heap 0, s') ∧
      (∀ i, 0 < i → i < s.heap.length → HP (nth s.heap 0) (nth s.heap i)) ∧
      s'.heap.Perm s.heap.tail ∧
      s'.pos.lookup (nth s.heap 0).task_id = none ∧
      (∀ id, id ≠ (nth s.heap 0).task_id →
        ((s'.pos.lookup id).isSome ↔ (s.pos.lookup id).isSome)) ∧
      size s' = size s - 1 := by
  have hinv := reachable_inv hre
  obtain ⟨s', hx, hinv', hlen, hperm, hnone, hkeys, -⟩ := extract_spec hinv hne
  exact ⟨s', hx, fun i h1 h2 => root_strict_max hinv i h1 h2, hperm, hnone, hkeys, hlen⟩

theorem claim_C1_extract_max_witness : HP (nth pqW2.heap 0) (nth pqW2.heap 1) := by
  obtain ⟨s', -, hmax, -⟩ := claim_C1_extract_max pqW2 reach_pqW2 (by decide)
  exact hmax 1 (by decide) (by decide)

/-- C2: heap-index consistency in every reachable state: `index[heap[i].id]
= i` for every slot `i`, `heap[index[id]].id = id` for every mapped `id`,
and the key set of the map is exactly the set of resident task ids. -/
theorem claim_C2_heap_index_consistency (s : PQ) (hre : Reachable s) :
    (∀ i, i < s.heap.length → s.pos.lookup (nth s.heap i).task_id = some i) ∧
    (∀ id k, s.pos.lookup id = some k →
      k < s.heap.length ∧ (nth s.heap k).task_id = id) ∧
    (∀ id, (s.pos.lookup id).isSome = true ↔
      ∃ i, i < s.heap.length ∧ (nth s.heap i).task_id = id) := by
  have hinv := reachable_inv hre
  refine ⟨hinv.1.fwd, hinv.1.bwd, ?_⟩
  intro id
  rw [lookup_isSome_mem_iff hinv.1]
  constructor
  · rintro ⟨u, hu, rfl⟩
    obtain ⟨i, hi, rfl⟩ := mem_iff_nth_eq.mp hu
    exact ⟨i, hi, rfl⟩
  · rintro ⟨i, hi, rfl⟩
    exact ⟨nth s.heap i, nth_mem hi, rfl⟩

theorem claim_C2_heap_index_consistency_witness :
    pqW2.pos.lookup (nth pqW2.heap 0).task_id = some 0 :=
  (claim_C2_heap_index_consistency pqW2 reach_pqW2).1 0 (by decide)

/-- C3: max-heap order in every reachable state: for every in-bounds child
slot `c` of `i` (`c = 2i+1` or `c = 2i+2`), the parent is strictly
higher-priority than the child. -/
theorem claim_C3_max_heap_order (s : PQ) (hre : Reachable s) :
    ∀ i c, c < s.heap.length → (c = 2 * i + 1 ∨ c = 2 * i + 2) →
      HP (nth s.heap i) (nth s.heap c) := by
  have hinv := reachable_inv hre
  intro i c hc hcc
  have hcgt : i < c := childIdx_gt hcc
  have hi : i < s.heap.length := by omega
  rcases HP_total_of_ne_id (posOk_ne_ids hinv.1 hi hc (by omega)) with h | h
  · exact h
  · exact absurd h (hinv.2 i c hc hcc)

theorem claim_C3_max_heap_order_witness :
    HP (nth pqW2.heap 0) (nth pqW2.heap 1) ∧ pqW2.heap.length = 2 := by
  refine ⟨claim_C3_max_heap_order pqW2 reach_pqW2 0 1 (by decide) (Or.inl rfl), by decide⟩

/-- C5: raises-iff for all five operations, in every reachable state:
`insert` fails (always with `DuplicateKey`) exactly when the task's id is
already resident; `extract_max`/`peek_max` fail (always with `EmptyQueue`)
exactly when the queue is empty; `increase_key`/`decrease_key` fail with
`NotFound` exactly when the id is absent, fail with `InvalidArgument`
exactly when the id is resident but the new priority is respectively
strictly below/above the current one, and succeed in exactly the remaining
cases. The embedding returns `Except.error` without building any successor
state, mirroring that the source validates before mutating anything
(check-then-act), so a failing call leaves the heap store and position
index untouched. -/
theorem claim_C5_error_handling (s : PQ) (hre : Reachable s) :
    (∀ t : Task, ((∃ e, insert s t = .error e) ↔
        ∃ u ∈ s.heap, u.task_id = t.task_id) ∧
      ∀ e, insert s t = .error e → e = .DuplicateKey) ∧
    ((∃ e, extract_max s = .error e) ↔ s.heap = []) ∧
    (∀ e, extract_max s = .error e → e = .EmptyQueue) ∧
    ((∃ e, peek_max s = .error e) ↔ s.heap = []) ∧
    (∀ e, peek_max s = .error e → e = .EmptyQueue) ∧
    (∀ id np,
      (increase_key s id np = .error .NotFound ↔ ∀ u ∈ s.heap, u.task_id ≠ id) ∧
      (increase_key s id np = .error .InvalidArgument ↔
        ∃ i, i < s.heap.length ∧ (nth s.heap i).task_id = id ∧
          np < (nth s.heap i).priority) ∧
      ((∃ s2, increase_key s id np = .ok s2) ↔
        ∃ i, i < s.heap.length ∧ (nth s.heap i).task_id = id ∧
          ¬ np < (nth s.heap i).priority)) ∧
    (∀ id np,
      (decrease_key s id np = .error .NotFound ↔ ∀ u ∈ s.heap, u.task_id ≠ id) ∧
      (decrease_key s id np = .error .InvalidArgument ↔
        ∃ i, i < s.heap.length ∧ (nth s.heap i).task_id = id ∧
          np > (nth s.heap i).priority) ∧
      ((∃ s2, decrease_key s id np = .ok s2) ↔
        ∃ i, i < s.heap.length ∧ (nth s.heap i).task_id = id ∧
          ¬ np > (nth s.heap i).priority)) := by
  have hinv := reachable_inv hre
  refine ⟨?_, ?_, ?_, ?_, ?_, ?_, ?_⟩
  · intro t
    constructor
    · constructor
      · rintro ⟨e, he⟩
        exact (lookup_isSome_mem_iff hinv.1 _).mp (insert_error_char.mp he).1
      · rintro ⟨u, hu, hid⟩
        exact ⟨.DuplicateKey, insert_error_char.mpr
          ⟨(lookup_isSome_mem_iff hinv.1 _).mpr ⟨u, hu, hid⟩, rfl⟩⟩
    · intro e he
      exact (insert_error_char.mp he).2
  · constructor
    · rintro ⟨e, he⟩
      exact (extract_error_char.mp he).1
    · intro hnil
      exact ⟨.EmptyQueue, extract_error_char.mpr ⟨hnil, rfl⟩⟩
  · intro e he
    exact (extract_error_char.mp he).2
  · constructor
    · rintro ⟨e, he⟩
      exact (peek_error_char.mp he).1
    · intro hnil
      exact ⟨.EmptyQueue, peek_error_char.mpr ⟨hnil, rfl⟩⟩
  · intro e he
    exact (peek_error_char.mp he).2
  · intro id np
    obtain ⟨h1, h2, h3⟩ := increase_char s id np
    refine ⟨?_, ?_, ?_⟩
    · rw [h1]
      exact lookup_none_mem_iff hinv.1 id
    · rw [h2]
      constructor
      · rintro ⟨i, hlk, hlt⟩
        obtain ⟨hi, hid⟩ := hinv.1.bwd id i hlk
        exact ⟨i, hi, hid, hlt⟩
      · rintro ⟨i, hi, hid, hlt⟩
        refine ⟨i, ?_, hlt⟩
        rw [← hid]
        exact hinv.1.fwd i hi
    · rw [h3]
      constructor
      · rintro ⟨i, hlk, hge⟩
        obtain ⟨hi, hid⟩ := hinv.1.bwd id i hlk
        exact ⟨i, hi, hid, hge⟩
      · rintro ⟨i, hi, hid, hge⟩
        refine ⟨i, ?_, hge⟩
        rw [← hid]
        exact hinv.1.fwd i hi
  · intro id np
    obtain ⟨h1, h2, h3⟩ := decrease_char s id np
    refine ⟨?_, ?_, ?_⟩
    · rw [h1]
      exact lookup_none_mem_iff hinv.1 id
    · rw [h2]
      constructor
      · rintro ⟨i, hlk, hlt⟩
        obtain ⟨hi, hid⟩ := hinv.1.bwd id i hlk
        exact ⟨i, hi, hid, hlt⟩
      · rintro ⟨i, hi, hid, hlt⟩
        refine ⟨i, ?_, hlt⟩
        rw [← hid]
        exact hinv.1.fwd i hi
    · rw [h3]
      constructor
      · rintro ⟨i, hlk, hge⟩
        obtain ⟨hi, hid⟩ := hinv.1.bwd id i hlk
        exact ⟨i, hi, hid, hge⟩
      · rintro ⟨i, hi, hid, hge⟩
        refine ⟨i, ?_, hge⟩
        rw [← hid]
        exact hinv.1.fwd i hi

theorem claim_C5_error_handling_witness : insert pqW2 wx = .error .DuplicateKey := by
  have h := (claim_C5_error_handling pqW2 reach_pqW2).1 wx
  obtain ⟨e, he⟩ := h.1.mpr ⟨wx, by decide, by decide⟩
  have := h.2 e he
  rw [this] at he
  exact he

/-- C6: the comparator is a strict total order on tasks with distinct ids:
irreflexive, transitive, asymmetric, and for two tasks with different ids
exactly one direction holds. -/
theorem claim_C6_comparator_strict_total_order (a b c : Task) :
    ¬ HP a a ∧
    (HP a b → HP b c → HP a c) ∧
    (HP a b → ¬ HP b a) ∧
    (a.task_id ≠ b.task_id → (HP a b ∨ HP b a) ∧ ¬ (HP a b ∧ HP b a)) := by
  refine ⟨HP_irrefl a, fun h1 h2 => HP_trans h1 h2, fun h => HP_asymm h, ?_⟩
  intro hne
  refine ⟨HP_total_of_ne_id hne, ?_⟩
  rintro ⟨h1, h2⟩
  exact HP_asymm h1 h2

theorem claim_C6_comparator_strict_total_order_witness :
    (HP wy wx ∨ HP wx wy) ∧ ¬ (HP wy wx ∧ HP wx wy) :=
  (claim_C6_comparator_strict_total_order wy wx wx).2.2.2 (by decide)

/-- C8: the concrete `__main__` scenario: simulating the five demo tasks
A(pr 3, t0), B(pr 10, t1), C(pr 5, t1), D(pr 10, t2), E(pr 1, t3) up to
`max_time = 6` yields exactly the timeline
[(0,A), (1,B), (2,D), (3,C), (4,E)], with no entries at times 5 and 6. -/
theorem claim_C8_demo_timeline :
    simulate_scheduler demoTasks 6 = .ok demoTimeline ∧
    ∀ p ∈ demoTimeline, p.1 ≤ 4 := by
  exact ⟨rfl, by decide⟩

/-- C9: key-mutation monotonicity on every reachable state: a successful
`increase_key` leaves the task's slot at a depth no greater than before,
and a successful `decrease_key` at a depth no smaller than before. -/
theorem claim_C9_key_mutation_monotonic (s : PQ) (hre : Reachable s)
    (id : String) (np : Int) (i : Nat) (hlk : s.pos.lookup id = some i) :
    (∀ s', increase_key s id np = .ok s' →
      ∃ j, s'.pos.lookup id = some j ∧ depth j ≤ depth i) ∧
    (∀ s', decrease_key s id np = .ok s' →
      ∃ j, s'.pos.lookup id = some j ∧ depth i ≤ depth j) := by
  have hinv := reachable_inv hre
  constructor
  · intro s' hok
    obtain ⟨i2, hlk2, hge⟩ := increase_ok_cond hok
    rw [hlk] at hlk2
    obtain rfl := Option.some.inj hlk2
    obtain ⟨s2, hok2, -, -, -, j, hdj, hlkj⟩ := increase_key_spec hinv hlk hge
    rw [hok] at hok2
    obtain rfl := Except.ok.inj hok2
    exact ⟨j, hlkj, hdj⟩
  · intro s' hok
    obtain ⟨i2, hlk2, hge⟩ := decrease_ok_cond hok
    rw [hlk] at hlk2
    obtain rfl := Option.some.inj hlk2
    obtain ⟨s2, hok2, -, -, -, j, hdj, hlkj⟩ := decrease_key_spec hinv hlk hge
    rw [hok] at hok2
    obtain rfl := Except.ok.inj hok2
    exact ⟨j, hlkj, hdj⟩

theorem claim_C9_key_mutation_monotonic_witness :
    pqW9.pos.lookup "x" = some 0 ∧ depth 0 ≤ depth 1 := by
  obtain ⟨j, hj, hd⟩ := (claim_C9_key_mutation_monotonic pqW2 reach_pqW2 "x" 5 1
    (by decide)).1 pqW9 (show increase_key pqW2 "x" 5 = .ok pqW9 from rfl)
  have hj0 : j = 0 := by
    have : pqW9.pos.lookup "x" = some 0 := by decide
    rw [this] at hj
    exact (Option.some.inj hj).symm
  subst hj0
  exact ⟨hj, hd⟩

/-- C4: round-trip sorting: inserting any distinct-id set of tasks into a
fresh queue succeeds, and draining it with `extract_max` yields a
permutation of the input that is strictly decreasing under the comparator;
any two insertion orders of the same set drain to the same sequence. -/
theorem claim_C4_round_trip (ts1 ts2 : List Task)
    (hids : (ts1.map Task.task_id).Nodup) (hperm : ts1.Perm ts2) :
    ∃ s1 s2, insertAll emptyPQ ts1 = .ok s1 ∧ insertAll emptyPQ ts2 = .ok s2 ∧
      (extractAll s1).Perm ts1 ∧ List.Sorted HP (extractAll s1) ∧
      extractAll s1 = extractAll s2 := by
  have hids2 : (ts2.map Task.task_id).Nodup := (hperm.map _).nodup hids
  obtain ⟨s1, hok1, hinv1, hperm1⟩ := insertAll_spec ts1 emptyPQ inv_empty
    (by simpa [emptyPQ] using hids)
  obtain ⟨s2, hok2, hinv2, hperm2⟩ := insertAll_spec ts2 emptyPQ inv_empty
    (by simpa [emptyPQ] using hids2)
  have hperm1h : s1.heap.Perm ts1 := by simpa [emptyPQ] using hperm1
  have hperm2h : s2.heap.Perm ts2 := by simpa [emptyPQ] using hperm2
  obtain ⟨hp1, hs1⟩ := extractAll_go_spec s1.heap.length s1 le_rfl hinv1
  obtain ⟨hp2, hs2⟩ := extractAll_go_spec s2.heap.length s2 le_rfl hinv2
  have he1 : (extractAll s1).Perm ts1 := hp1.trans hperm1h
  have he2 : (extractAll s2).Perm ts2 := hp2.trans hperm2h
  have hsort1 : List.Sorted HP (extractAll s1) := hs1
  have hsort2 : List.Sorted HP (extractAll s2) := hs2
  haveI : IsAntisymm Task HP := ⟨fun a b h1 h2 => absurd h2 (HP_asymm h1)⟩
  have heq : extractAll s1 = extractAll s2 :=
    List.eq_of_perm_of_sorted (he1.trans (hperm.trans he2.symm)) hsort1 hsort2
  exact ⟨s1, s2, hok1, hok2, he1, hsort1, heq⟩

theorem claim_C4_round_trip_witness : extractAll pqC4a = extractAll pqC4b := by
  obtain ⟨s1, s2, h1, h2, -, -, heq⟩ := claim_C4_round_trip [wx, wy] [wy, wx]
    (by decide) (by decide)
  have e1 : pqC4a = s1 := Except.ok.inj
    ((show insertAll emptyPQ [wx, wy] = .ok pqC4a from rfl).symm.trans h1)
  have e2 : pqC4b = s2 := Except.ok.inj
    ((show insertAll emptyPQ [wy, wx] = .ok pqC4b from rfl).symm.trans h2)
  rw [e1, e2]
  exact heq

/-- C7: for distinct-id tasks with non-negative arrival times, the timeline
returned by the scheduler has strictly increasing times (at most one entry
per time unit, all within the horizon), never executes a task before its
arrival time, and at each step the executed task is the strict
`higher_priority`-maximum among the tasks that have arrived by that time
and have not yet been executed. -/
theorem claim_C7_scheduler_extraction (ts : List Task) (maxTime : Nat)
    (hids : (ts.map Task.task_id).Nodup) (harr : ∀ u ∈ ts, 0 ≤ u.arrival_time)
    (tl : List (Nat × Task)) (hsim : simulate_scheduler ts maxTime = .ok tl) :
    List.Pairwise (fun p q : Nat × Task => p.1 < q.1) tl ∧
    (∀ p ∈ tl, p.1 ≤ maxTime ∧ p.2.arrival_time ≤ (p.1 : Int)) ∧
    ∀ j (hj : j < tl.length),
      (tl.get ⟨j, hj⟩).2 ∈ ts ∧
      (tl.get ⟨j, hj⟩).2 ∉ (tl.take j).map Prod.snd ∧
      ∀ u ∈ ts, u.arrival_time ≤ ((tl.get ⟨j, hj⟩).1 : Int) →
        u ∉ (tl.take j).map Prod.snd → u ≠ (tl.get ⟨j, hj⟩).2 →
        HP (tl.get ⟨j, hj⟩).2 u := by
  have h0 : (emptyPQ.heap : Multiset Task)
      = (arrivedBy ts 0 : Multiset Task) - (([] : List Task) : Multiset Task) := by
    rw [arrivedBy_zero harr]
    rfl
  have hle0 : (([] : List Task) : Multiset Task)
      ≤ (arrivedBy ts 0 : Multiset Task) := by
    simp
  obtain ⟨tl2, hsim2, hbound, hpw, hprops⟩ :=
    simLoop_main ts hids harr (maxTime + 1) 0 emptyPQ [] inv_empty h0 hle0
  have hsimeq : simulate_scheduler ts maxTime
      = simLoop ts emptyPQ (List.range' 0 (maxTime + 1)) := by
    unfold simulate_scheduler
    rw [List.range_eq_range']
  rw [hsimeq, hsim2] at hsim
  obtain rfl := Except.ok.inj hsim
  refine ⟨hpw, ?_, ?_⟩
  · intro p hp
    have h1 := hbound p hp
    obtain ⟨⟨j, hj⟩, hget⟩ := List.mem_iff_get.mp hp
    have h2 := (hprops j hj).1
    rw [hget] at h2
    exact ⟨by omega, h2⟩
  · intro j hj
    obtain ⟨harr2, hmem2, -, htake2, hmax2⟩ := hprops j hj
    exact ⟨hmem2, htake2,
      fun u hu h1 h2 h3 => hmax2 u hu h1 (List.not_mem_nil u) h2 h3⟩

theorem claim_C7_scheduler_extraction_witness :
    List.Pairwise (fun p q : Nat × Task => p.1 < q.1) demoTimeline :=
  (claim_C7_scheduler_extraction demoTasks 6 (by decide) (by decide)
    demoTimeline rfl).1

/-- C10: the driver only ever inserts tasks whose arrival time lies in
[0, maxTime]: the simulation result is unchanged (errors included) when
out-of-horizon tasks are dropped from the input, and every timeline entry's
task comes from the input, arrives within [0, its execution time], and is
executed within the horizon; tasks not extracted simply never appear in the
timeline. -/
theorem claim_C10_horizon (ts : List Task) (maxTime : Nat) :
    simulate_scheduler ts maxTime
      = simulate_scheduler (ts.filter (fun u =>
          decide (0 ≤ u.arrival_time) && decide (u.arrival_time ≤ (maxTime : Int))))
        maxTime ∧
    ∀ tl, simulate_scheduler ts maxTime = .ok tl →
      ∀ p ∈ tl, p.2 ∈ ts ∧ 0 ≤ p.2.arrival_time ∧
        p.2.arrival_time ≤ (p.1 : Int) ∧ p.1 ≤ maxTime := by
  constructor
  · unfold simulate_scheduler
    apply simLoop_congr
    intro t ht
    have htle : t ≤ maxTime := by
      have := List.mem_range.mp ht
      omega
    rw [List.filter_filter]
    apply List.filter_congr
    intro u _
    by_cases he : u.arrival_time = (t : Int)
    · have h1 : decide ((0 : Int) ≤ u.arrival_time) = true := by
        rw [he]
        simp
    
      have h2 : decide (u.arrival_time ≤ (maxTime : Int)) = true := by
        rw [he]
        simp
        exact_mod_cast htle
      simp [he, h1, h2, htle]
    · simp [he]
  · intro tl hsim p hp
    have hpw : List.Pairwise (· < ·) (List.range (maxTime + 1)) :=
      List.pairwise_lt_range _
    have hmem := simLoop_mem ts (List.range (maxTime + 1)) emptyPQ tl hpw
      (fun u hu => absurd hu (List.not_mem_nil u)) hsim p hp
    obtain ⟨h1, h2, h3, h4⟩ := hmem
    exact ⟨h2, h3, h4, by have := List.mem_range.mp h1; omega⟩

theorem claim_C10_horizon_witness :
    taskA ∈ demoTasks ∧ (0 : Int) ≤ taskA.arrival_time := by
  have h := (claim_C10_horizon demoTasks 6).2 demoTimeline rfl (0, taskA) (by decide)
  exact ⟨h.1, h.2.1⟩

end Sched

